import Mathlib

/-!
SM3 extension (`project_4_sm3/sm3_ext.c`): embedding and verified properties.

The C translation unit is embedded function by function.

* `uint32_t` values are natural numbers below `2^32`; every addition is
  reduced `% 2^32`, `size_t` arithmetic is reduced `% 2^64`.
* Byte buffers and word arrays are lists; `a[i] = v` is `List.set`, `a[i]` is
  `List.getD a i 0`.
* The two `static` objects (`initialized` inside `sm3_hash` and the table
  `ROTATED_T`) form the explicit process state `ProcState`.
* `malloc` hands out a block with arbitrary contents; those contents are the
  parameter `heap` of `fill_message` and `sm3_hash`.
* A message is the list of its bytes; the C argument `len` is its length.
* Local arrays that the source fills front to back (`W`, `W_prime`, `result`)
  are the lists of the values stored, in index order.
-/

namespace SM3

/-! ## Machine arithmetic -/

/-- Wrapping addition of two `uint32_t` values. -/
def add32 (a b : Nat) : Nat := (a + b) % 2 ^ 32

/-- The C expression `x << n` on a `uint32_t` with an `int` count.  For a count
in `0..31` this is the C semantics.  For a count outside that range the C
standard leaves the result undefined; the model takes the count modulo 32,
which is what the x86 shift instructions of the target do. -/
def shl32 (x : Nat) (n : Int) : Nat := (x <<< (n % 32).toNat) % 2 ^ 32

/-- The C expression `x >> n` on a `uint32_t` with an `int` count, with the
same treatment of the count as `shl32`. -/
def shr32 (x : Nat) (n : Int) : Nat := (x % 2 ^ 32) >>> (n % 32).toNat

/-- The C expression `~x` on a `uint32_t`. -/
def not32 (x : Nat) : Nat := 2 ^ 32 - 1 - x % 2 ^ 32

/-! ## Constants and process state -/

/-- The initial state `IV[8]`. -/
def IV : List Nat :=
  [0x7380166F, 0x4914B2B9, 0x172442D7, 0xDA8A0600,
   0xA96F30BC, 0x163138AA, 0xE38DEE4D, 0xB0FB0E4E]

/-- Constant `T1` of `init_rotated_T`. -/
def T1 : Nat := 0x79CC4519

/-- Constant `T2` of `init_rotated_T`. -/
def T2 : Nat := 0x7A879D8A

/-- The objects with static storage duration: the flag `initialized` of
`sm3_hash` and the table `ROTATED_T`. -/
structure ProcState where
  initialized : Nat
  ROTATED_T : List Nat

/-- Static storage is zero-initialised when the process starts. -/
def ProcState.start : ProcState := ⟨0, List.replicate 64 0⟩

/-- Function `init_rotated_T`: the two loops over `j`, writing `ROTATED_T[j]`. -/
def init_rotated_T (ROTATED_T : List Nat) : List Nat :=
  let t := (List.range' 0 16).foldl
    (fun t j => t.set j (shl32 T1 (j : Int) ||| shr32 T1 (32 - (j : Int)))) ROTATED_T
  (List.range' 16 48).foldl
    (fun t j => t.set j (shl32 T2 (j : Int) ||| shr32 T2 (32 - (j : Int)))) t

/-! ## Word functions -/

/-- Function `rotate_left(x, n)`: `n %= 32; return (x << n) | (x >> (32 - n));`. -/
def rotate_left (x : Nat) (n : Int) : Nat :=
  let n := n.tmod 32
  shl32 x n ||| shr32 x (32 - n)

/-- Permutation `P0`. -/
def P0 (x : Nat) : Nat := x ^^^ rotate_left x 9 ^^^ rotate_left x 17

/-- Permutation `P1`. -/
def P1 (x : Nat) : Nat := x ^^^ rotate_left x 15 ^^^ rotate_left x 23

/-! ## Padding -/

/-- Local `length_bits` of `fill_message`. -/
def length_bits (len : Nat) : Nat := (len * 8) % 2 ^ 64

/-- Local `padded_len` of `fill_message`. -/
def padded_len (len : Nat) : Nat := (len + 1 + 8) % 2 ^ 64

/-- Local `zeros_needed` of `fill_message`. -/
def zeros_needed (len : Nat) : Nat := (64 - (padded_len len % 64)) % 64

/-- The value stored to `*out_len` by `fill_message`. -/
def out_len (len : Nat) : Nat := (len + 1 + zeros_needed len + 8) % 2 ^ 64

/-- Library call `malloc(n)`: a block of `n` bytes whose contents are whatever the heap
held, `heap i` at offset `i`.  Allocation is assumed to succeed (the source
does not test the returned pointer). -/
def malloc (heap : Nat → Nat) (n : Nat) : List Nat := (List.range n).map heap

/-- Library call `memcpy(dst, src, n)`: byte `i` of `src` goes to `dst[i]`. -/
def memcpy (dst src : List Nat) (n : Nat) : List Nat :=
  (List.range n).foldl (fun d i => d.set i (src.getD i 0)) dst

/-- Library call `memset(dst + off, v, n)`. -/
def memset (dst : List Nat) (off v n : Nat) : List Nat :=
  (List.range n).foldl (fun d i => d.set (off + i) v) dst

/-- Function `fill_message(message, len, &out_len)` with `len = message.length`:
returns the buffer and the value written to `*out_len`. -/
def fill_message (heap : Nat → Nat) (message : List Nat) : List Nat × Nat :=
  let len := message.length
  let padded := malloc heap (out_len len)
  let padded := memcpy padded message len
  let padded := padded.set len 0x80
  let padded := memset padded (len + 1) 0 (zeros_needed len)
  let padded := (List.range 8).foldl
    (fun p i => p.set (len + 1 + zeros_needed len + i)
      ((length_bits len >>> (8 * (7 - i))) &&& 0xFF)) padded
  (padded, out_len len)

/-! ## Compression -/

/-- The `uint32_t` found at `W[i]` after the four unaligned 128-bit copies of
`B[0..63]` onto `W[0..15]`: on the little-endian target the byte at the lowest
address is the least significant. -/
def load_le32 (B : List Nat) (i : Nat) : Nat :=
  B.getD (4 * i) 0 + B.getD (4 * i + 1) 0 * 2 ^ 8
    + B.getD (4 * i + 2) 0 * 2 ^ 16 + B.getD (4 * i + 3) 0 * 2 ^ 24

/-- Modelled from the spec: the compiler intrinsic `_bswap_32`, which is not
defined in the repository; it reverses the order of the four bytes of a
32-bit word. -/
def _bswap_32 (x : Nat) : Nat :=
  (x % 256) * 2 ^ 24 + (x / 2 ^ 8 % 256) * 2 ^ 16
    + (x / 2 ^ 16 % 256) * 2 ^ 8 + (x / 2 ^ 24 % 256)

/-- Words `W[0..15]` after the loads and the byte-swap loop. -/
def W_load (B : List Nat) : List Nat :=
  (List.range 16).map (fun i => _bswap_32 (load_le32 B i))

/-- One iteration of the expansion loop: computes `temp` and stores it to
`W[j]`, the next free slot of the array filled so far. -/
def W_step (W : List Nat) (j : Nat) : List Nat :=
  let temp := W.getD (j - 16) 0 ^^^ W.getD (j - 9) 0 ^^^ rotate_left (W.getD (j - 3) 0) 15
  let temp := P1 temp
  let temp := temp ^^^ rotate_left (W.getD (j - 13) 0) 7
  let temp := temp ^^^ W.getD (j - 6) 0
  W ++ [temp]

/-- The array `W[0..67]` of `compression_function`. -/
def W_array (B : List Nat) : List Nat :=
  (List.range' 16 52).foldl W_step (W_load B)

/-- The array `W_prime[0..63]` of `compression_function`. -/
def W_prime_array (W : List Nat) : List Nat :=
  (List.range 64).map (fun j => W.getD j 0 ^^^ W.getD (j + 4) 0)

/-- The working registers `A, B_reg, C, D, E, F, G, H`. -/
structure Regs where
  A : Nat
  B_reg : Nat
  C : Nat
  D : Nat
  E : Nat
  F : Nat
  G : Nat
  H : Nat
  deriving DecidableEq, Repr

/-- Value `SS1` of round `j`; `Tj` is `ROTATED_T[j]`. -/
def SS1 (A E Tj : Nat) : Nat :=
  rotate_left ((add32 (add32 (rotate_left A 12) E) Tj) &&& 0xFFFFFFFF) 7

/-- Value `SS2` of round `j`. -/
def SS2 (A ss1 : Nat) : Nat := ss1 ^^^ rotate_left A 12

/-- Value `TT1` of round `j` as the C compiler parses lines 121 and 124: the
additive operator binds tighter than `^`, `&` and `|`. -/
def TT1 (j A B_reg C D ss2 Wpj : Nat) : Nat :=
  if j < 16 then
    (A ^^^ B_reg ^^^ add32 (add32 (add32 C D) ss2) Wpj) &&& 0xFFFFFFFF
  else
    ((A &&& B_reg) ||| (A &&& C) ||| add32 (add32 (add32 (B_reg &&& C) D) ss2) Wpj)
      &&& 0xFFFFFFFF

/-- Value `TT2` of round `j` as the C compiler parses lines 122 and 125. -/
def TT2 (j E F G H ss1 Wj : Nat) : Nat :=
  if j < 16 then
    (E ^^^ F ^^^ add32 (add32 (add32 G H) ss1) Wj) &&& 0xFFFFFFFF
  else
    ((E &&& F) ||| add32 (add32 (add32 (not32 E &&& G) H) ss1) Wj) &&& 0xFFFFFFFF

/-- The body of the 64-round loop for round `j`. -/
def round (ROTATED_T W W_prime : List Nat) (r : Regs) (j : Nat) : Regs :=
  let ss1 := SS1 r.A r.E (ROTATED_T.getD j 0)
  let ss2 := SS2 r.A ss1
  let tt1 := TT1 j r.A r.B_reg r.C r.D ss2 (W_prime.getD j 0)
  let tt2 := TT2 j r.E r.F r.G r.H ss1 (W.getD j 0)
  { A := tt1, B_reg := r.A, C := rotate_left r.B_reg 9, D := r.C,
    E := P0 tt2, F := r.E, G := rotate_left r.F 19, H := r.G }

/-- The registers seeded from `V[0..7]`. -/
def seed (V : List Nat) : Regs :=
  { A := V.getD 0 0, B_reg := V.getD 1 0, C := V.getD 2 0, D := V.getD 3 0,
    E := V.getD 4 0, F := V.getD 5 0, G := V.getD 6 0, H := V.getD 7 0 }

/-- The registers after the 64-round loop. -/
def rounds (ROTATED_T W W_prime : List Nat) (r : Regs) : Regs :=
  (List.range 64).foldl (round ROTATED_T W W_prime) r

/-- Function `compression_function(V, B)`: returns the updated `V[0..7]`. -/
def compression_function (ROTATED_T V B : List Nat) : List Nat :=
  let W := W_array B
  let W_prime := W_prime_array W
  let r := rounds ROTATED_T W W_prime (seed V)
  [V.getD 0 0 ^^^ r.A, V.getD 1 0 ^^^ r.B_reg, V.getD 2 0 ^^^ r.C, V.getD 3 0 ^^^ r.D,
   V.getD 4 0 ^^^ r.E, V.getD 5 0 ^^^ r.F, V.getD 6 0 ^^^ r.G, V.getD 7 0 ^^^ r.H]

/-! ## Driver and encoder -/

/-- The block loop `for (i = 0; i < padded_len; i += 64)`: iteration `k` has
`i = 64 * k` and passes `&padded[i]`. -/
def block_loop (ROTATED_T padded : List Nat) (n : Nat) (V : List Nat) : List Nat :=
  (List.range ((n + 63) / 64)).foldl
    (fun V k => compression_function ROTATED_T V (padded.drop (64 * k))) V

/-- The string `hex_digits` of `sm3_hash`. -/
def hex_digits : List Char := "0123456789abcdef".toList

/-- The character stored to `result[i * 8 + j]`. -/
def hex_char (V : List Nat) (i j : Nat) : Char :=
  let byte := (V.getD i 0 >>> (28 - j * 4)) &&& 0x0F
  hex_digits.getD byte (Char.ofNat 0)

/-- The 65 characters `result[0..64]` written by the encoder loops and the
final store of the terminator. -/
def encode (V : List Nat) : List Char :=
  (List.range 8).flatMap (fun i => (List.range 8).map (fun j => hex_char V i j))
    ++ [Char.ofNat 0]

/-- The lazy table construction at the top of `sm3_hash`. -/
def ensure_init (st : ProcState) : ProcState :=
  if st.initialized = 0 then ⟨1, init_rotated_T st.ROTATED_T⟩ else st

/-- Function `sm3_hash(message, len, result)` with `len = message.length`: returns the
process state after the call and the contents of `result[0..64]`. -/
def sm3_hash (st : ProcState) (heap : Nat → Nat) (message : List Nat) :
    ProcState × List Char :=
  let st := ensure_init st
  let p := fill_message heap message
  let V := block_loop st.ROTATED_T p.1 p.2 IV
  (st, encode V)

/-- The C string held in a character buffer: the characters before the first
NUL. -/
def c_string (buf : List Char) : List Char := buf.takeWhile (fun c => c ≠ Char.ofNat 0)

/-- The process state after a sequence of earlier calls, each with its own
heap contents and message. -/
def run_calls (st : ProcState) (calls : List ((Nat → Nat) × List Nat)) : ProcState :=
  calls.foldl (fun st c => (sm3_hash st c.1 c.2).1) st

/-! ## Definitions used to state the properties -/

/-- Byte `i` (from the most significant) of the 64-bit length field. -/
def length_byte (len i : Nat) : Nat := (length_bits len >>> (8 * (7 - i))) &&& 0xFF

/-- The byte found at offset `k` of the padded buffer: the layout produced by
the successive writes of `fill_message`, latest write first. -/
def padded_byte (message : List Nat) (k : Nat) : Nat :=
  let len := message.length
  if len + 1 + zeros_needed len ≤ k ∧ k < len + 1 + zeros_needed len + 8 then
    length_byte len (k - (len + 1 + zeros_needed len))
  else if len + 1 ≤ k ∧ k < len + 1 + zeros_needed len then 0
  else if k = len then 0x80
  else message.getD k 0

/-- Big-endian reading of a byte string. -/
def be_read (bs : List Nat) : Nat := bs.foldl (fun acc b => acc * 256 + b) 0

/-- The table after `init_rotated_T` ran on the zero-initialised array. -/
def built : ProcState := ⟨1, init_rotated_T (List.replicate 64 0)⟩

/-- The value stored to `W[j]` by the expansion loop, read off an array `W`. -/
def W_rec (W : List Nat) (j : Nat) : Nat :=
  P1 (W.getD (j - 16) 0 ^^^ W.getD (j - 9) 0 ^^^ rotate_left (W.getD (j - 3) 0) 15)
    ^^^ rotate_left (W.getD (j - 13) 0) 7 ^^^ W.getD (j - 6) 0

/-- The boolean function `FF` in the words of the specification. -/
def FF (j A B C : Nat) : Nat :=
  if j < 16 then A ^^^ B ^^^ C else (A &&& B) ||| (A &&& C) ||| (B &&& C)

/-- The boolean function `GG` in the words of the specification. -/
def GG (j E F G : Nat) : Nat :=
  if j < 16 then E ^^^ F ^^^ G else (E &&& F) ||| (not32 E &&& G)

/-- Value `TT1 = (FF + D + SS2 + W'[j]) mod 2^32` in the words of the specification. -/
def TT1_spec (j A B C D ss2 Wpj : Nat) : Nat := (FF j A B C + D + ss2 + Wpj) % 2 ^ 32

/-- Value `TT2 = (GG + H + SS1 + W[j]) mod 2^32` in the words of the specification. -/
def TT2_spec (j E F G H ss1 Wj : Nat) : Nat := (GG j E F G + H + ss1 + Wj) % 2 ^ 32

/-- The registers at the start of round `j` of the first block. -/
def regs_at (ROTATED_T W W_prime : List Nat) (V : List Nat) (j : Nat) : Regs :=
  (List.range j).foldl (round ROTATED_T W W_prime) (seed V)

/-- The padded buffer of the empty message: one block. -/
def empty_block : List Nat := (fill_message (fun _ => 0) []).1

/-- The three bytes of the message "abc". -/
def abc : List Nat := [0x61, 0x62, 0x63]

/-- The 32-bit circular left shift of a word `x` by `n` positions, `0 ≤ n ≤ 31`,
in the words of the specification: the low `32 - n` bits move up by `n`, the
high `n` bits wrap around to the bottom. -/
def rotl32 (x n : Nat) : Nat := (x * 2 ^ n) % 2 ^ 32 + x / 2 ^ (32 - n)

/-- The second argument of every call of `rotate_left` in the source, in the
order of the source lines 47, 52, 96, 98, 117, 118, 130 and 134. -/
def rotate_call_sites : List Int := [9, 17, 15, 23, 15, 7, 12, 7, 12, 9, 19]

/-- The registers `A, B_reg, C, D, E, F, G, H` in the order of `V[0..7]`. -/
def Regs.toList (r : Regs) : List Nat := [r.A, r.B_reg, r.C, r.D, r.E, r.F, r.G, r.H]

/-- All fields of a register file are 32-bit words. -/
def Regs.is_word (r : Regs) : Prop :=
  r.A < 2 ^ 32 ∧ r.B_reg < 2 ^ 32 ∧ r.C < 2 ^ 32 ∧ r.D < 2 ^ 32 ∧
    r.E < 2 ^ 32 ∧ r.F < 2 ^ 32 ∧ r.G < 2 ^ 32 ∧ r.H < 2 ^ 32

/-- The state `V` at the start of iteration `k` of the block loop of `sm3_hash`. -/
def state_before (ROTATED_T padded : List Nat) (k : Nat) : List Nat :=
  (List.range k).foldl
    (fun V k => compression_function ROTATED_T V (padded.drop (64 * k))) IV

/-- The consecutive 64-byte blocks of a buffer: block `k` holds the bytes
`64k .. 64k+63`. -/
def blocks (padded : List Nat) : List (List Nat) :=
  (List.range (padded.length / 64)).map (fun k => (padded.drop (64 * k)).take 64)

/-- The test `!initialized` at the top of `sm3_hash`: whether this call runs
`init_rotated_T`. -/
def init_runs (st : ProcState) : Bool := decide (st.initialized = 0)

/-- The value of a hexadecimal digit: its position in "0123456789abcdef". -/
def hex_value (c : Char) : Nat := hex_digits.indexOf c

/-- Reading of a string of hexadecimal digits, most significant digit first. -/
def parse_hex (cs : List Char) : Nat := cs.foldl (fun acc c => acc * 16 + hex_value c) 0

/-- Parsing of a 64-character digest string into 8 words, 8 characters per
word. -/
def decode (s : List Char) : List Nat :=
  (List.range 8).map (fun i => parse_hex ((s.drop (8 * i)).take 8))

/-- The 8 characters that the encoder writes for one word `v`. -/
def word_chars (v : Nat) : List Char :=
  (List.range 8).map (fun k => hex_digits.getD ((v >>> (28 - k * 4)) &&& 0x0F) (Char.ofNat 0))

/-- The message `m` with bit `b` (`b < 8`) of byte `i` flipped. -/
def flip_bit (m : List Nat) (i b : Nat) : List Nat := m.set i (m.getD i 0 ^^^ 2 ^ b)

/-- The array `W` as filled when the expansion loop reaches index `j`
(`16 ≤ j ≤ 68`): the entries `W[0..j-1]`. -/
def W_upto (B : List Nat) (j : Nat) : List Nat :=
  (List.range' 16 (j - 16)).foldl W_step (W_load B)

/-- The loop body of round `j` in the words of the specification: as `round`,
but with `TT1` and `TT2` computed from the fully evaluated boolean functions
(`TT1_spec`, `TT2_spec`). -/
def round_spec (ROTATED_T W W_prime : List Nat) (r : Regs) (j : Nat) : Regs :=
  let ss1 := SS1 r.A r.E (ROTATED_T.getD j 0)
  let ss2 := SS2 r.A ss1
  let tt1 := TT1_spec j r.A r.B_reg r.C r.D ss2 (W_prime.getD j 0)
  let tt2 := TT2_spec j r.E r.F r.G r.H ss1 (W.getD j 0)
  { A := tt1, B_reg := r.A, C := rotate_left r.B_reg 9, D := r.C,
    E := P0 tt2, F := r.E, G := rotate_left r.F 19, H := r.G }

/-- The compression of one block in the words of the specification: as
`compression_function`, with `round_spec` for the loop body. -/
def compression_function_spec (ROTATED_T V B : List Nat) : List Nat :=
  let W := W_array B
  let W_prime := W_prime_array W
  let r := (List.range 64).foldl (round_spec ROTATED_T W W_prime) (seed V)
  [V.getD 0 0 ^^^ r.A, V.getD 1 0 ^^^ r.B_reg, V.getD 2 0 ^^^ r.C, V.getD 3 0 ^^^ r.D,
   V.getD 4 0 ^^^ r.E, V.getD 5 0 ^^^ r.F, V.getD 6 0 ^^^ r.G, V.getD 7 0 ^^^ r.H]

/-- The digest in the words of the specification: the padding, block loop and
encoder of `sm3_hash`, with `compression_function_spec` for the compression;
returns the contents of `result[0..64]`. -/
def sm3_hash_spec (st : ProcState) (heap : Nat → Nat) (message : List Nat) : List Char :=
  let st := ensure_init st
  let p := fill_message heap message
  encode ((List.range ((p.2 + 63) / 64)).foldl
    (fun V k => compression_function_spec st.ROTATED_T V (p.1.drop (64 * k))) IV)

/-! ## Buffer lemmas -/

theorem length_foldl_set (g f : Nat → Nat) (n : Nat) (l : List Nat) :
    ((List.range n).foldl (fun d i => d.set (g i) (f i)) l).length = l.length := by
  induction n with
  | zero => simp
  | succ n ih => simp [List.range_succ, List.foldl_append, ih]

theorem getElem?_foldl_set (off : Nat) (f : Nat → Nat) (n : Nat) (l : List Nat) (k : Nat) :
    ((List.range n).foldl (fun d i => d.set (off + i) (f i)) l)[k]? =
      if off ≤ k ∧ k < off + n ∧ k < l.length then some (f (k - off)) else l[k]? := by
  induction n with
  | zero =>
    have h0 : ¬ (off ≤ k ∧ k < off + 0 ∧ k < l.length) := by omega
    rw [if_neg h0]
    rfl
  | succ n ih =>
    rw [List.range_succ, List.foldl_append, List.foldl_cons, List.foldl_nil,
      List.getElem?_set, ih, length_foldl_set]
    by_cases h1 : off + n = k
    · subst h1
      by_cases h2 : off + n < l.length
      · have e : off + n - off = n := by omega
        simp [h2, e]
      · have h3 : l[off + n]? = none := by
          rw [List.getElem?_eq_none_iff]; omega
        simp [h2, h3]
    · by_cases h2 : off ≤ k ∧ k < off + n ∧ k < l.length
      · have h3 : off ≤ k ∧ k < off + (n + 1) ∧ k < l.length := by omega
        simp [h1, h2, h3]
      · have h3 : ¬ (off ≤ k ∧ k < off + (n + 1) ∧ k < l.length) := by omega
        simp [h1, h2, h3]

theorem length_memcpy (dst src : List Nat) (n : Nat) :
    (memcpy dst src n).length = dst.length :=
  length_foldl_set (fun i => i) (fun i => src.getD i 0) n dst

theorem getElem?_memcpy (dst src : List Nat) (n k : Nat) :
    (memcpy dst src n)[k]? =
      if k < n ∧ k < dst.length then some (src.getD k 0) else dst[k]? := by
  have h := getElem?_foldl_set 0 (fun i => src.getD i 0) n dst k
  simp only [Nat.zero_add, Nat.sub_zero, Nat.zero_le, true_and] at h
  exact h

theorem length_memset (dst : List Nat) (off v n : Nat) :
    (memset dst off v n).length = dst.length :=
  length_foldl_set (fun i => off + i) (fun _ => v) n dst

theorem getElem?_memset (dst : List Nat) (off v n k : Nat) :
    (memset dst off v n)[k]? =
      if off ≤ k ∧ k < off + n ∧ k < dst.length then some v else dst[k]? :=
  getElem?_foldl_set off (fun _ => v) n dst k

theorem length_malloc (heap : Nat → Nat) (n : Nat) : (malloc heap n).length = n := by
  simp [malloc]

theorem getElem?_malloc (heap : Nat → Nat) (n k : Nat) :
    (malloc heap n)[k]? = if k < n then some (heap k) else none := by
  unfold malloc
  by_cases h : k < n
  · simp [h, List.getElem?_range h]
  · have h2 : (List.range n)[k]? = none := by
      rw [List.getElem?_eq_none_iff]; simpa using h
    simp [h, h2]

theorem length_fill_message (heap : Nat → Nat) (message : List Nat) :
    (fill_message heap message).1.length = out_len message.length := by
  unfold fill_message
  simp only
  rw [length_foldl_set (fun i => message.length + 1 + zeros_needed message.length + i)
    (fun i => (length_bits message.length >>> (8 * (7 - i))) &&& 0xFF), length_memset,
    List.length_set, length_memcpy, length_malloc]

theorem out_len_le (len : Nat) : out_len len ≤ len + 1 + zeros_needed len + 8 :=
  Nat.mod_le _ _

theorem getElem?_fill_message (heap : Nat → Nat) (message : List Nat) (k : Nat) :
    (fill_message heap message).1[k]? =
      if k < out_len message.length then some (padded_byte message k) else none := by
  have hle := out_len_le message.length
  unfold fill_message
  simp only
  rw [getElem?_foldl_set (message.length + 1 + zeros_needed message.length)
    (fun i => (length_bits message.length >>> (8 * (7 - i))) &&& 0xFF),
    getElem?_memset, List.getElem?_set, getElem?_memcpy, getElem?_malloc, length_memset,
    List.length_set, length_memcpy, length_malloc]
  unfold padded_byte length_byte
  simp only
  generalize zeros_needed message.length = Z at hle ⊢
  generalize out_len message.length = n at hle ⊢
  by_cases hk : k < n
  · simp only [hk, and_true, if_true]
    split_ifs <;> first | rfl | omega
  · have h1 : ¬ (message.length + 1 + Z ≤ k ∧ k < message.length + 1 + Z + 8 ∧ k < n) := by
      omega
    have h2 : ¬ (message.length + 1 ≤ k ∧ k < message.length + 1 + Z ∧ k < n) := by omega
    have h3 : ¬ (k < message.length ∧ k < n) := by omega
    simp only [h1, h2, h3, hk, if_false]
    split_ifs <;> first | rfl | omega | simp_all

/-- The contents of the padded buffer do not depend on what `malloc` returned. -/
theorem fill_message_heap (heap heap2 : Nat → Nat) (message : List Nat) :
    fill_message heap message = fill_message heap2 message := by
  apply Prod.ext
  · apply List.ext_getElem?
    intro k
    rw [getElem?_fill_message, getElem?_fill_message]
  · rfl

/-! ## Padding arithmetic -/

theorem zeros_needed_lt (len : Nat) : zeros_needed len < 64 := by
  unfold zeros_needed
  omega

theorem out_len_eq (len : Nat) (h : len * 8 < 2 ^ 64) :
    out_len len = len + 1 + zeros_needed len + 8 := by
  have hz := zeros_needed_lt len
  unfold out_len
  omega

theorem and_255 (x : Nat) : x &&& 0xFF = x % 256 :=
  Nat.and_pow_two_sub_one_eq_mod x 8

theorem length_byte_eq (len i : Nat) :
    length_byte len i = length_bits len / 2 ^ (8 * (7 - i)) % 256 := by
  unfold length_byte
  rw [and_255, Nat.shiftRight_eq_div_pow]

theorem be_read_length_bytes (len : Nat) :
    be_read ((List.range 8).map (length_byte len)) = length_bits len := by
  have hb : length_bits len < 2 ^ 64 := Nat.mod_lt _ (by norm_num)
  have hr : List.range 8 = [0, 1, 2, 3, 4, 5, 6, 7] := by decide
  rw [hr]
  simp only [List.map, be_read, List.foldl, length_byte_eq]
  norm_num
  omega

theorem fill_message_explicit (heap : Nat → Nat) (message : List Nat)
    (h : message.length * 8 < 2 ^ 64) :
    (fill_message heap message).1 =
      message ++ 0x80 :: (List.replicate (zeros_needed message.length) 0
        ++ (List.range 8).map (length_byte message.length)) := by
  apply List.ext_getElem?
  intro k
  rw [getElem?_fill_message, out_len_eq _ h]
  unfold padded_byte
  simp only
  generalize zeros_needed message.length = Z
  rw [List.getElem?_append]
  by_cases h1 : k < message.length
  · have e : message.getD k 0 = message[k] := by
      rw [List.getD_eq_getElem?_getD, List.getElem?_eq_getElem h1]; rfl
    have h2 : ¬ (message.length + 1 + Z ≤ k ∧ k < message.length + 1 + Z + 8) := by omega
    have h3 : ¬ (message.length + 1 ≤ k ∧ k < message.length + 1 + Z) := by omega
    have h4 : k ≠ message.length := by omega
    have h5 : k < message.length + 1 + Z + 8 := by omega
    rw [if_pos h5, if_neg h2, if_neg h3, if_neg h4, if_pos h1, e,
      List.getElem?_eq_getElem h1]
  · rw [if_neg h1]
    by_cases h2 : k = message.length
    · subst h2
      have h3 : ¬ (message.length + 1 + Z ≤ message.length ∧
          message.length < message.length + 1 + Z + 8) := by omega
      have h4 : ¬ (message.length + 1 ≤ message.length ∧
          message.length < message.length + 1 + Z) := by omega
      have h5 : message.length < message.length + 1 + Z + 8 := by omega
      rw [if_pos h5, if_neg h3, if_neg h4, if_pos rfl]
      simp
    · obtain ⟨d, hd⟩ : ∃ d, k = message.length + 1 + d := ⟨k - message.length - 1, by omega⟩
      subst hd
      have e1 : message.length + 1 + d - message.length = d + 1 := by omega
      rw [e1, List.getElem?_cons_succ, List.getElem?_append, List.length_replicate,
        List.getElem?_replicate]
      by_cases h3 : d < Z
      · have h4 : ¬ (message.length + 1 + Z ≤ message.length + 1 + d ∧
            message.length + 1 + d < message.length + 1 + Z + 8) := by omega
        have h5 : message.length + 1 ≤ message.length + 1 + d ∧
            message.length + 1 + d < message.length + 1 + Z := by omega
        have h6 : message.length + 1 + d < message.length + 1 + Z + 8 := by omega
        rw [if_pos h6, if_neg h4, if_pos h5, if_pos h3, if_pos h3]
      · rw [if_neg h3, List.getElem?_map]
        by_cases h4 : d - Z < 8
        · have h5 : message.length + 1 + Z ≤ message.length + 1 + d ∧
              message.length + 1 + d < message.length + 1 + Z + 8 := by omega
          have h6 : message.length + 1 + d < message.length + 1 + Z + 8 := by omega
          have e2 : message.length + 1 + d - (message.length + 1 + Z) = d - Z := by omega
          rw [if_pos h6, if_pos h5, e2, List.getElem?_range h4]
          rfl
        · have h6 : ¬ message.length + 1 + d < message.length + 1 + Z + 8 := by omega
          have h7 : (List.range 8)[d - Z]? = none := by
            rw [List.getElem?_eq_none_iff]; simp; omega
          rw [if_neg h6, h7]
          rfl

/-! ## Claims on padding -/

/-- C5: for a message whose bit length fits in 64 bits, the length stored to
`*out_len` by `fill_message` is positive, a multiple of 64 and at least the
message length plus 9; it is also the length of the returned buffer. -/
theorem fill_message_out_len_law (heap : Nat → Nat) (message : List Nat)
    (h : message.length * 8 < 2 ^ 64) :
    0 < (fill_message heap message).2 ∧ 64 ∣ (fill_message heap message).2 ∧
      message.length + 9 ≤ (fill_message heap message).2 ∧
      (fill_message heap message).1.length = (fill_message heap message).2 := by
  have hz := zeros_needed_lt message.length
  have he := out_len_eq message.length h
  have hl := length_fill_message heap message
  have h2 : (fill_message heap message).2 = out_len message.length := rfl
  rw [h2, hl]
  refine ⟨by omega, ?_, by omega, rfl⟩
  unfold out_len zeros_needed padded_len
  omega

theorem fill_message_out_len_law_witness :
    [0x61, 0x62, 0x63].length * 8 < 2 ^ 64 ∧
      0 < (fill_message (fun _ => 0) [0x61, 0x62, 0x63]).2 ∧
      64 ∣ (fill_message (fun _ => 0) [0x61, 0x62, 0x63]).2 ∧
      [0x61, 0x62, 0x63].length + 9 ≤ (fill_message (fun _ => 0) [0x61, 0x62, 0x63]).2 ∧
      (fill_message (fun _ => 0) [0x61, 0x62, 0x63]).1.length
        = (fill_message (fun _ => 0) [0x61, 0x62, 0x63]).2 :=
  ⟨by decide, fill_message_out_len_law (fun _ => 0) [0x61, 0x62, 0x63] (by decide)⟩

/-- C7: for a message of length `L` whose bit length fits in 64 bits, the
padded length is `L + 1 + Z + 8` with `Z = zeros_needed L < 64` the least
number of zero bytes that makes it a multiple of 64; it equals
`64 * ((L + 8) / 64 + 1)`, the least multiple of 64 that is at least `L + 9`.
Lengths 0 and 55 give 64, length 56 gives 128. -/
theorem fill_message_out_len_minimal (heap : Nat → Nat) (message : List Nat)
    (h : message.length * 8 < 2 ^ 64) :
    (fill_message heap message).2
        = message.length + 1 + zeros_needed message.length + 8 ∧
      zeros_needed message.length < 64 ∧
      64 ∣ message.length + 1 + zeros_needed message.length + 8 ∧
      (∀ z : Nat, 64 ∣ message.length + 1 + z + 8 → zeros_needed message.length ≤ z) ∧
      (fill_message heap message).2 = 64 * ((message.length + 8) / 64 + 1) ∧
      (∀ n : Nat, 64 ∣ n → message.length + 9 ≤ n → (fill_message heap message).2 ≤ n) ∧
      (fill_message heap []).2 = 64 ∧
      (fill_message heap (List.replicate 55 0)).2 = 64 ∧
      (fill_message heap (List.replicate 56 0)).2 = 128 := by
  have hz := zeros_needed_lt message.length
  have he := out_len_eq message.length h
  have h2 : (fill_message heap message).2 = out_len message.length := rfl
  have hZ : zeros_needed message.length
      = (64 - ((message.length + 1 + 8) % 2 ^ 64 % 64)) % 64 := rfl
  rw [h2, he]
  refine ⟨rfl, hz, by omega, ?_, by omega, ?_, ?_, ?_, ?_⟩
  · intro z hzd
    omega
  · intro n hn hle
    omega
  · show out_len ([] : List Nat).length = 64
    decide
  · show out_len (List.replicate 55 0).length = 64
    rw [List.length_replicate]
    decide
  · show out_len (List.replicate 56 0).length = 128
    rw [List.length_replicate]
    decide

theorem fill_message_out_len_minimal_witness :
    (List.replicate 56 0).length * 8 < 2 ^ 64 ∧
      (fill_message (fun _ => 0) (List.replicate 56 0)).2 = 128 :=
  ⟨by rw [List.length_replicate]; decide,
    (fill_message_out_len_minimal (fun _ => 0) (List.replicate 56 0)
      (by rw [List.length_replicate]; decide)).2.2.2.2.2.2.2.2⟩

/-- C8: for a message `m` of length `L` whose bit length fits in 64 bits, the
buffer returned by `fill_message` is `m`, then the byte 0x80, then `Z` zero
bytes, then 8 bytes (each below 256) whose big-endian reading is `L * 8`;
its length is `L + 1 + Z + 8`, so it holds nothing else, whatever the
allocated block contained. -/
theorem fill_message_contents (heap : Nat → Nat) (message : List Nat)
    (h : message.length * 8 < 2 ^ 64) :
    (fill_message heap message).1 =
        message ++ 0x80 :: (List.replicate (zeros_needed message.length) 0 ++
          (fill_message heap message).1.drop
            (message.length + 1 + zeros_needed message.length)) ∧
      ((fill_message heap message).1.drop
        (message.length + 1 + zeros_needed message.length)).length = 8 ∧
      (List.all ((fill_message heap message).1.drop
        (message.length + 1 + zeros_needed message.length)) (fun b => decide (b < 256))
          = true) ∧
      be_read ((fill_message heap message).1.drop
        (message.length + 1 + zeros_needed message.length)) = message.length * 8 ∧
      (fill_message heap message).1.length
        = message.length + 1 + zeros_needed message.length + 8 := by
  have hx := fill_message_explicit heap message h
  have hd : (fill_message heap message).1.drop
      (message.length + 1 + zeros_needed message.length)
        = (List.range 8).map (length_byte message.length) := by
    rw [hx]
    have e : message ++ 0x80 :: (List.replicate (zeros_needed message.length) 0
        ++ (List.range 8).map (length_byte message.length))
        = (message ++ 0x80 :: List.replicate (zeros_needed message.length) 0)
          ++ (List.range 8).map (length_byte message.length) := by simp
    rw [e]
    apply List.drop_left'
    simp only [List.length_append, List.length_cons, List.length_replicate]
    omega
  rw [hd]
  refine ⟨hx, by simp, ?_, ?_, ?_⟩
  · rw [List.all_eq_true]
    intro b hb
    rw [List.mem_map] at hb
    obtain ⟨i, _, rfl⟩ := hb
    rw [length_byte_eq]
    exact decide_eq_true (Nat.mod_lt _ (by norm_num))
  · rw [be_read_length_bytes]
    unfold length_bits
    omega
  · rw [length_fill_message, out_len_eq _ h]

theorem fill_message_contents_witness :
    [0x61, 0x62, 0x63].length * 8 < 2 ^ 64 ∧
      be_read ((fill_message (fun _ => 0xAA) [0x61, 0x62, 0x63]).1.drop
        ([0x61, 0x62, 0x63].length + 1 + zeros_needed [0x61, 0x62, 0x63].length)) = 24 :=
  ⟨by decide, (fill_message_contents (fun _ => 0xAA) [0x61, 0x62, 0x63] (by decide)).2.2.2.1⟩

/-! ## Encoder lemmas -/

theorem hex_char_mem (V : List Nat) (i j : Nat) :
    hex_char V i j ∈ hex_digits ∧ hex_char V i j ≠ Char.ofNat 0 := by
  unfold hex_char
  simp only
  have hb : (V.getD i 0 >>> (28 - j * 4)) &&& 0x0F < 16 :=
    Nat.and_lt_two_pow _ (by norm_num : 0x0F < 2 ^ 4)
  generalize (V.getD i 0 >>> (28 - j * 4)) &&& 0x0F = b at hb
  interval_cases b <;> decide

theorem encode_eq (V : List Nat) :
    encode V = (List.range 64).map (fun n => hex_char V (n / 8) (n % 8)) ++ [Char.ofNat 0] := by
  rfl

theorem takeWhile_append_stop (p : Char → Bool) (l : List Char) (c : Char)
    (hl : ∀ x ∈ l, p x = true) (hc : p c = false) :
    (l ++ [c]).takeWhile p = l := by
  induction l with
  | nil => simp [List.takeWhile, hc]
  | cons a t ih =>
    have ha : p a = true := hl a (List.mem_cons_self a t)
    have ht : ∀ x ∈ t, p x = true := fun x hx => hl x (List.mem_cons_of_mem a hx)
    simp [List.takeWhile, ha, ih ht]

theorem c_string_encode (V : List Nat) :
    c_string (encode V) = (List.range 64).map (fun n => hex_char V (n / 8) (n % 8)) := by
  rw [encode_eq]
  unfold c_string
  apply takeWhile_append_stop
  · intro x hx
    rw [List.mem_map] at hx
    obtain ⟨n, _, rfl⟩ := hx
    simpa using (hex_char_mem V (n / 8) (n % 8)).2
  · simp

theorem getD_encode (V : List Nat) (n : Nat) (h : n < 64) (d : Char) :
    (encode V).getD n d = hex_char V (n / 8) (n % 8) := by
  rw [encode_eq, List.getD_eq_getElem?_getD, List.getElem?_append_left (by simpa using h),
    List.getElem?_map, List.getElem?_range h]
  rfl

/-! ## Process state lemmas -/

theorem ensure_init_start : ensure_init ProcState.start = built := rfl

theorem ensure_init_built : ensure_init built = built := rfl

theorem sm3_hash_state (st : ProcState) (heap : Nat → Nat) (message : List Nat) :
    (sm3_hash st heap message).1 = ensure_init st := rfl

theorem run_calls_start (calls : List ((Nat → Nat) × List Nat)) :
    run_calls ProcState.start calls = ProcState.start ∨
      run_calls ProcState.start calls = built := by
  induction calls using List.reverseRecOn with
  | nil => exact Or.inl rfl
  | append_singleton l c ih =>
    right
    unfold run_calls at ih ⊢
    rw [List.foldl_append, List.foldl_cons, List.foldl_nil, sm3_hash_state]
    rcases ih with h | h
    · rw [h, ensure_init_start]
    · rw [h, ensure_init_built]

theorem ensure_init_run_calls (calls : List ((Nat → Nat) × List Nat)) :
    ensure_init (run_calls ProcState.start calls) = built := by
  rcases run_calls_start calls with h | h
  · rw [h, ensure_init_start]
  · rw [h, ensure_init_built]

theorem sm3_hash_result (st : ProcState) (heap : Nat → Nat) (message : List Nat) :
    (sm3_hash st heap message).2 =
      encode (block_loop (ensure_init st).ROTATED_T (fill_message heap message).1
        (fill_message heap message).2 IV) := rfl

/-! ## Claims on the digest string -/

/-- C3: for every message, process state and heap, `sm3_hash` writes 65
characters: `result[0..63]` are characters of "0123456789abcdef", none of
them NUL, `result[64]` is NUL, and the C string in `result` has length 64. -/
theorem sm3_hash_output_shape (st : ProcState) (heap : Nat → Nat) (message : List Nat) :
    (sm3_hash st heap message).2.length = 65 ∧
      (c_string (sm3_hash st heap message).2).length = 64 ∧
      (∀ i : Fin 64, (sm3_hash st heap message).2.getD i.val (Char.ofNat 0) ∈ hex_digits ∧
        (sm3_hash st heap message).2.getD i.val (Char.ofNat 0) ≠ Char.ofNat 0) ∧
      (sm3_hash st heap message).2.getD 64 (Char.ofNat 1) = Char.ofNat 0 := by
  rw [sm3_hash_result]
  generalize block_loop (ensure_init st).ROTATED_T (fill_message heap message).1
    (fill_message heap message).2 IV = V
  refine ⟨?_, ?_, ?_, ?_⟩
  · rw [encode_eq]
    simp
  · rw [c_string_encode]
    simp
  · intro i
    rw [getD_encode V i.val i.isLt]
    exact hex_char_mem V _ _
  · rw [encode_eq, List.getD_eq_getElem?_getD, List.getElem?_append_right (by simp)]
    simp

/-- C4: the digest written for a message is the same in the first call of the
process and in any later call: after any two histories of earlier calls, and
whatever the allocated blocks contained, `sm3_hash` writes the same result
for the same message. -/
theorem sm3_hash_deterministic (calls calls2 : List ((Nat → Nat) × List Nat))
    (heap heap2 : Nat → Nat) (message : List Nat) :
    (sm3_hash (run_calls ProcState.start calls) heap message).2 =
      (sm3_hash (run_calls ProcState.start calls2) heap2 message).2 := by
  rw [sm3_hash_result, sm3_hash_result, ensure_init_run_calls, ensure_init_run_calls,
    fill_message_heap heap heap2]

/-! ## Message expansion lemmas -/

theorem W_rec_append (W : List Nat) (t j : Nat) (hj : j ≤ W.length) (h16 : 16 ≤ j) :
    W_rec (W ++ [t]) j = W_rec W j := by
  unfold W_rec
  rw [List.getD_append W [t] 0 (j - 16) (by omega), List.getD_append W [t] 0 (j - 9) (by omega),
    List.getD_append W [t] 0 (j - 3) (by omega), List.getD_append W [t] 0 (j - 13) (by omega),
    List.getD_append W [t] 0 (j - 6) (by omega)]

theorem W_step_eq (W : List Nat) (j : Nat) : W_step W j = W ++ [W_rec W j] := rfl

theorem W_fold (W0 : List Nat) (h0 : W0.length = 16) (n : Nat) :
    ((List.range' 16 n).foldl W_step W0).length = 16 + n ∧
      (∀ i, i < 16 → ((List.range' 16 n).foldl W_step W0).getD i 0 = W0.getD i 0) ∧
      (∀ j, 16 ≤ j → j < 16 + n →
        ((List.range' 16 n).foldl W_step W0).getD j 0
          = W_rec ((List.range' 16 n).foldl W_step W0) j) := by
  induction n with
  | zero =>
    refine ⟨by simpa using h0, fun i _ => rfl, fun j h1 h2 => ?_⟩
    omega
  | succ n ih =>
    obtain ⟨hl, hlo, hhi⟩ := ih
    rw [List.range'_concat, List.foldl_concat, W_step_eq]
    generalize (List.range' 16 n).foldl W_step W0 = W at hl hlo hhi
    refine ⟨by simp [hl]; omega, fun i hi => ?_, fun j h1 h2 => ?_⟩
    · rw [List.getD_append W _ 0 i (by omega)]
      exact hlo i hi
    · rw [W_rec_append W _ j (by omega) h1]
      by_cases hj : j < 16 + n
      · rw [List.getD_append W _ 0 j (by omega)]
        exact hhi j h1 hj
      · have e : j = W.length := by omega
        have e2 : 16 + 1 * n = W.length := by omega
        rw [e2, e, List.getD_append_right W _ 0 W.length (le_refl _)]
        simp

theorem length_W_load (B : List Nat) : (W_load B).length = 16 := by
  simp [W_load]

theorem getD_W_load (B : List Nat) (i : Nat) (hi : i < 16) :
    (W_load B).getD i 0 = _bswap_32 (load_le32 B i) := by
  unfold W_load
  rw [List.getD_eq_getElem?_getD, List.getElem?_map, List.getElem?_range hi]
  rfl

theorem getD_lt_256 (B : List Nat) (hB : ∀ b ∈ B, b < 256) (k : Nat) : B.getD k 0 < 256 := by
  by_cases hk : k < B.length
  · rw [List.getD_eq_getElem B 0 hk]
    exact hB _ (List.getElem_mem hk)
  · rw [List.getD_eq_default B 0 (by omega)]
    norm_num

theorem bswap_load (B : List Nat) (hB : ∀ b ∈ B, b < 256) (i : Nat) :
    _bswap_32 (load_le32 B i) =
      B.getD (4 * i) 0 * 2 ^ 24 + B.getD (4 * i + 1) 0 * 2 ^ 16
        + B.getD (4 * i + 2) 0 * 2 ^ 8 + B.getD (4 * i + 3) 0 := by
  have h0 := getD_lt_256 B hB (4 * i)
  have h1 := getD_lt_256 B hB (4 * i + 1)
  have h2 := getD_lt_256 B hB (4 * i + 2)
  have h3 := getD_lt_256 B hB (4 * i + 3)
  unfold _bswap_32 load_le32
  generalize B.getD (4 * i) 0 = b0 at h0 ⊢
  generalize B.getD (4 * i + 1) 0 = b1 at h1 ⊢
  generalize B.getD (4 * i + 2) 0 = b2 at h2 ⊢
  generalize B.getD (4 * i + 3) 0 = b3 at h3 ⊢
  omega

theorem getD_W_prime_array (W : List Nat) (j : Nat) (hj : j < 64) :
    (W_prime_array W).getD j 0 = W.getD j 0 ^^^ W.getD (j + 4) 0 := by
  unfold W_prime_array
  rw [List.getD_eq_getElem?_getD, List.getElem?_map, List.getElem?_range hj]
  rfl

/-! ## Claims on message expansion -/

/-- C9: for every block `B` and every `j` with `16 ≤ j < 68`, the array `W` of
`compression_function` satisfies
`W[j] = P1(W[j-16] ^ W[j-9] ^ rotl(W[j-3],15)) ^ rotl(W[j-13],7) ^ W[j-6]`
with `P1 x = x ^ rotl(x,15) ^ rotl(x,23)`; `W'[i] = W[i] ^ W[i+4]` for every
`i < 64`; `W` has 68 words and `W'` 64; and both arrays are functions of the
block alone, `compression_function` using them unchanged for every state. -/
theorem W_expansion (B : List Nat) (j : Nat) (h16 : 16 ≤ j) (h68 : j < 68) :
    (W_array B).getD j 0 =
        P1 ((W_array B).getD (j - 16) 0 ^^^ (W_array B).getD (j - 9) 0
            ^^^ rotate_left ((W_array B).getD (j - 3) 0) 15)
          ^^^ rotate_left ((W_array B).getD (j - 13) 0) 7 ^^^ (W_array B).getD (j - 6) 0 ∧
      (∀ x : Nat, P1 x = x ^^^ rotate_left x 15 ^^^ rotate_left x 23) ∧
      (∀ i : Fin 64, (W_prime_array (W_array B)).getD i.val 0
        = (W_array B).getD i.val 0 ^^^ (W_array B).getD (i.val + 4) 0) ∧
      (W_array B).length = 68 ∧ (W_prime_array (W_array B)).length = 64 ∧
      (∀ T V : List Nat, compression_function T V B =
        [V.getD 0 0 ^^^ (rounds T (W_array B) (W_prime_array (W_array B)) (seed V)).A,
         V.getD 1 0 ^^^ (rounds T (W_array B) (W_prime_array (W_array B)) (seed V)).B_reg,
         V.getD 2 0 ^^^ (rounds T (W_array B) (W_prime_array (W_array B)) (seed V)).C,
         V.getD 3 0 ^^^ (rounds T (W_array B) (W_prime_array (W_array B)) (seed V)).D,
         V.getD 4 0 ^^^ (rounds T (W_array B) (W_prime_array (W_array B)) (seed V)).E,
         V.getD 5 0 ^^^ (rounds T (W_array B) (W_prime_array (W_array B)) (seed V)).F,
         V.getD 6 0 ^^^ (rounds T (W_array B) (W_prime_array (W_array B)) (seed V)).G,
         V.getD 7 0 ^^^ (rounds T (W_array B) (W_prime_array (W_array B)) (seed V)).H]) := by
  obtain ⟨hl, _, hhi⟩ := W_fold (W_load B) (length_W_load B) 52
  refine ⟨hhi j h16 (by omega), fun x => rfl, fun i => ?_, hl, by simp [W_prime_array],
    fun T V => rfl⟩
  exact getD_W_prime_array _ i.val i.isLt

/-- C10: for every block `B` of bytes and every `i < 16`, the word `W[i]` used
by `compression_function` is the big-endian reading of `B[4i..4i+3]`. -/
theorem W_big_endian (B : List Nat) (hB : ∀ b ∈ B, b < 256) (i : Nat) (hi : i < 16) :
    (W_array B).getD i 0 =
      B.getD (4 * i) 0 * 2 ^ 24 + B.getD (4 * i + 1) 0 * 2 ^ 16
        + B.getD (4 * i + 2) 0 * 2 ^ 8 + B.getD (4 * i + 3) 0 := by
  obtain ⟨_, hlo, _⟩ := W_fold (W_load B) (length_W_load B) 52
  have h := hlo i hi
  unfold W_array
  rw [h, getD_W_load B i hi, bswap_load B hB i]

/-! ## Claims on the known vectors -/

/-- C1 (the code at the failing input): on the empty message `sm3_hash` writes
"8c7fe990b6eb4d46e8dbbd282575f9ffee69a80011b783db191019f4e087a6c8".  With the
boolean functions evaluated before the additions, as the specification
requires, the same padding, expansion, rounds and encoder give
"1ab21d8355cfa17f8e61194831e81a8f22bec8c728fefb747ed035eb5082aa2b", whose
first 63 characters are the known vector of the specification.  The digest
written by the code differs from the known vector from its first character
on. -/
theorem sm3_hash_empty_vector :
    c_string (sm3_hash ProcState.start (fun _ => 0) []).2 =
        "8c7fe990b6eb4d46e8dbbd282575f9ffee69a80011b783db191019f4e087a6c8".toList ∧
      c_string (sm3_hash_spec ProcState.start (fun _ => 0) []) =
        "1ab21d8355cfa17f8e61194831e81a8f22bec8c728fefb747ed035eb5082aa2b".toList ∧
      (c_string (sm3_hash_spec ProcState.start (fun _ => 0) [])).take 63 =
        "1ab21d8355cfa17f8e61194831e81a8f22bec8c728fefb747ed035eb5082aa2".toList ∧
      (c_string (sm3_hash ProcState.start (fun _ => 0) []).2).take 63 ≠
        "1ab21d8355cfa17f8e61194831e81a8f22bec8c728fefb747ed035eb5082aa2".toList ∧
      c_string (sm3_hash ProcState.start (fun _ => 0) []).2 ≠
        "1ab21d8355cfa17f8e61194831e81a8f22bec8c728fefb747ed035eb5082aa2".toList ∧
      (c_string (sm3_hash ProcState.start (fun _ => 0) []).2).head? = some '8' ∧
      "1ab21d8355cfa17f8e61194831e81a8f22bec8c728fefb747ed035eb5082aa2".toList.head?
        = some '1' := by
  decide!

/-- C2 (the code at the failing input): on the message "abc" `sm3_hash` writes
"8c7fe990b6eb4d46e8dbbd282575f9ffa87f0878cea8129083e2abead01e20d7".  With the
boolean functions evaluated before the additions, as the specification
requires, the same padding, expansion, rounds and encoder give
"66c7f0f462eeedd9d1f2d46bdc10e4e24167c4875cf2f7a2297da02b8f4ba8e0", whose
first 63 characters are the known vector of the specification.  The digest
written by the code differs from the known vector from its first character
on. -/
theorem sm3_hash_abc_vector :
    c_string (sm3_hash ProcState.start (fun _ => 0) abc).2 =
        "8c7fe990b6eb4d46e8dbbd282575f9ffa87f0878cea8129083e2abead01e20d7".toList ∧
      c_string (sm3_hash_spec ProcState.start (fun _ => 0) abc) =
        "66c7f0f462eeedd9d1f2d46bdc10e4e24167c4875cf2f7a2297da02b8f4ba8e0".toList ∧
      (c_string (sm3_hash_spec ProcState.start (fun _ => 0) abc)).take 63 =
        "66c7f0f462eeedd9d1f2d46bdc10e4e24167c4875cf2f7a2297da02b8f4ba8e".toList ∧
      (c_string (sm3_hash ProcState.start (fun _ => 0) abc).2).take 63 ≠
        "66c7f0f462eeedd9d1f2d46bdc10e4e24167c4875cf2f7a2297da02b8f4ba8e".toList ∧
      c_string (sm3_hash ProcState.start (fun _ => 0) abc).2 ≠
        "66c7f0f462eeedd9d1f2d46bdc10e4e24167c4875cf2f7a2297da02b8f4ba8e".toList ∧
      (c_string (sm3_hash ProcState.start (fun _ => 0) abc).2).head? = some '8' ∧
      "66c7f0f462eeedd9d1f2d46bdc10e4e24167c4875cf2f7a2297da02b8f4ba8e".toList.head?
        = some '6' := by
  decide!

/-! ## Claim on the grouping of the round expressions -/

/-- C6 (the code at a failing input): hashing the empty message, round 0 of
the only block starts from the registers `IV` with `SS1 = 0x51368692`,
`SS2 = 0x505071AA` and `W[0] = W'[0] = 0x80000000`.  The code computes
`TT1 = 0xFB6A1E57` and `TT2 = 0xDAE18B3B`, whereas
`(FF + D + SS2 + W'[0]) mod 2^32 = 0xD88B5DAB` and
`(GG + H + SS1 + W[0]) mod 2^32 = 0xDF057B3B`.  In round 16 of the same
block the two readings differ as well. -/
theorem TT_grouping_diverges :
    regs_at built.ROTATED_T (W_array empty_block) (W_prime_array (W_array empty_block)) IV 0
        = ⟨0x7380166F, 0x4914B2B9, 0x172442D7, 0xDA8A0600,
           0xA96F30BC, 0x163138AA, 0xE38DEE4D, 0xB0FB0E4E⟩ ∧
      SS1 0x7380166F 0xA96F30BC (built.ROTATED_T.getD 0 0) = 0x51368692 ∧
      SS2 0x7380166F 0x51368692 = 0x505071AA ∧
      (W_array empty_block).getD 0 0 = 0x80000000 ∧
      (W_prime_array (W_array empty_block)).getD 0 0 = 0x80000000 ∧
      TT1 0 0x7380166F 0x4914B2B9 0x172442D7 0xDA8A0600 0x505071AA 0x80000000 = 0xFB6A1E57 ∧
      TT1_spec 0 0x7380166F 0x4914B2B9 0x172442D7 0xDA8A0600 0x505071AA 0x80000000
        = 0xD88B5DAB ∧
      TT2 0 0xA96F30BC 0x163138AA 0xE38DEE4D 0xB0FB0E4E 0x51368692 0x80000000 = 0xDAE18B3B ∧
      TT2_spec 0 0xA96F30BC 0x163138AA 0xE38DEE4D 0xB0FB0E4E 0x51368692 0x80000000
        = 0xDF057B3B ∧
      regs_at built.ROTATED_T (W_array empty_block) (W_prime_array (W_array empty_block)) IV 16
        = ⟨0x07D7FAF1, 0xCD8FF2DA, 0x736320F9, 0xE7115D69,
           0x07F442ED, 0x2CBCF564, 0x6ECF2D26, 0xBA9ADEE7⟩ ∧
      TT1 16 0x07D7FAF1 0xCD8FF2DA 0x736320F9 0xE7115D69 0xE949E8EF 0x80404000 = 0x97DFF7F1 ∧
      TT1_spec 16 0x07D7FAF1 0xCD8FF2DA 0x736320F9 0xE7115D69 0xE949E8EF 0x80404000
        = 0x98637951 ∧
      TT2 16 0x07F442ED 0x2CBCF564 0x6ECF2D26 0xBA9ADEE7 0x96E6F892 0x80404000 = 0x3DFD447F ∧
      TT2_spec 16 0x07F442ED 0x2CBCF564 0x6ECF2D26 0xBA9ADEE7 0x96E6F892 0x80404000
        = 0x3E8184DF := by
  decide!

/-! ## Witnesses for the expansion claims -/

theorem W_expansion_witness :
    16 ≤ 16 ∧ 16 < 68 ∧
      (W_array empty_block).getD 16 0 =
        P1 ((W_array empty_block).getD (16 - 16) 0 ^^^ (W_array empty_block).getD (16 - 9) 0
            ^^^ rotate_left ((W_array empty_block).getD (16 - 3) 0) 15)
          ^^^ rotate_left ((W_array empty_block).getD (16 - 13) 0) 7
          ^^^ (W_array empty_block).getD (16 - 6) 0 :=
  ⟨by decide, by decide, (W_expansion empty_block 16 (by decide) (by decide)).1⟩

theorem W_big_endian_witness :
    (∀ b ∈ [0x61, 0x62, 0x63, 0x80], b < 256) ∧ 0 < 16 ∧
      (W_array [0x61, 0x62, 0x63, 0x80]).getD 0 0 =
        [0x61, 0x62, 0x63, 0x80].getD (4 * 0) 0 * 2 ^ 24
          + [0x61, 0x62, 0x63, 0x80].getD (4 * 0 + 1) 0 * 2 ^ 16
          + [0x61, 0x62, 0x63, 0x80].getD (4 * 0 + 2) 0 * 2 ^ 8
          + [0x61, 0x62, 0x63, 0x80].getD (4 * 0 + 3) 0 :=
  ⟨by decide, by decide, W_big_endian [0x61, 0x62, 0x63, 0x80] (by decide) 0 (by decide)⟩

/-! ## Shifts with a count in range -/

theorem shl32_in_range (x n : Nat) (h : n < 32) : shl32 x (n : Int) = (x * 2 ^ n) % 2 ^ 32 := by
  have e : ((n : Int) % 32).toNat = n := by omega
  unfold shl32
  rw [e, Nat.shiftLeft_eq]

theorem shr32_in_range (x n : Nat) (h : n < 32) : shr32 x (n : Int) = x % 2 ^ 32 / 2 ^ n := by
  have e : ((n : Int) % 32).toNat = n := by omega
  unfold shr32
  rw [e, Nat.shiftRight_eq_div_pow]

/-! ## Rotation lemmas -/

theorem testBit_high (x : Nat) (hx : x < 2 ^ 32) (k : Nat) (hk : 32 ≤ k) :
    x.testBit k = false :=
  Nat.testBit_lt_two_pow (lt_of_lt_of_le hx (Nat.pow_le_pow_right (by norm_num) hk))

theorem rotate_left_or (x n : Nat) (hx : x < 2 ^ 32) (h1 : 1 ≤ n) (h31 : n ≤ 31) :
    rotate_left x (n : Int) = (x <<< n) % 2 ^ 32 ||| x >>> (32 - n) := by
  have e0 : (n : Int).tmod 32 = (n : Int) := by
    rw [Int.tmod_eq_emod (by omega) (by norm_num)]
    omega
  have e1 : ((n : Int) % 32).toNat = n := by omega
  have e2 : ((32 - (n : Int)) % 32).toNat = 32 - n := by omega
  unfold rotate_left shl32 shr32
  simp only [e0, e1, e2, Nat.mod_eq_of_lt hx]

theorem rotate_left_lt (x n : Nat) (hx : x < 2 ^ 32) (h1 : 1 ≤ n) (h31 : n ≤ 31) :
    rotate_left x (n : Int) < 2 ^ 32 := by
  rw [rotate_left_or x n hx h1 h31]
  apply Nat.or_lt_two_pow (Nat.mod_lt _ (by norm_num))
  rw [Nat.shiftRight_eq_div_pow]
  exact lt_of_le_of_lt (Nat.div_le_self _ _) hx

theorem rotate_left_testBit (x n : Nat) (hx : x < 2 ^ 32) (h1 : 1 ≤ n) (h31 : n ≤ 31)
    (i : Nat) (hi : i < 32) :
    (rotate_left x (n : Int)).testBit i = x.testBit ((i + 32 - n) % 32) := by
  rw [rotate_left_or x n hx h1 h31, Nat.testBit_or, Nat.testBit_mod_two_pow,
    Nat.testBit_shiftLeft, Nat.testBit_shiftRight]
  by_cases hin : n ≤ i
  · have e : (i + 32 - n) % 32 = i - n := by omega
    rw [e, testBit_high x hx (32 - n + i) (by omega)]
    simp [hi, hin]
  · have e : (i + 32 - n) % 32 = 32 - n + i := by omega
    rw [e]
    simp [hin]

theorem rotate_left_sum (x n : Nat) (hx : x < 2 ^ 32) (h1 : 1 ≤ n) (h31 : n ≤ 31) :
    rotate_left x (n : Int) = rotl32 x n := by
  rw [rotate_left_or x n hx h1 h31]
  unfold rotl32
  rw [Nat.shiftLeft_eq, Nat.shiftRight_eq_div_pow]
  have hp : (2 : Nat) ^ 32 = 2 ^ n * 2 ^ (32 - n) := by
    rw [← Nat.pow_add]
    congr 1
    omega
  have hlt : x / 2 ^ (32 - n) < 2 ^ n := by
    rw [Nat.div_lt_iff_lt_mul (Nat.pow_pos (by norm_num))]
    rw [hp] at hx
    exact hx
  have hm : x * 2 ^ n % 2 ^ 32 = 2 ^ n * (x % 2 ^ (32 - n)) := by
    rw [hp, Nat.mul_comm x, Nat.mul_mod_mul_left]
  rw [hm]
  exact (Nat.mul_add_lt_is_or hlt _).symm

theorem rotate_left_inverse (x n : Nat) (hx : x < 2 ^ 32) (h1 : 1 ≤ n) (h31 : n ≤ 31) :
    rotate_left (rotate_left x (n : Int)) (32 - (n : Int)) = x := by
  have hy := rotate_left_lt x n hx h1 h31
  have ec : (32 - (n : Int)) = ((32 - n : Nat) : Int) := by omega
  rw [ec]
  apply Nat.eq_of_testBit_eq
  intro i
  by_cases hi : i < 32
  · rw [rotate_left_testBit _ (32 - n) hy (by omega) (by omega) i hi,
      rotate_left_testBit x n hx h1 h31 _ (Nat.mod_lt _ (by norm_num))]
    congr 1
    omega
  · rw [testBit_high _ (rotate_left_lt _ (32 - n) hy (by omega) (by omega)) i (by omega),
      testBit_high x hx i (by omega)]

/-! ## Claim on `rotate_left` -/

/-- C20: for every 32-bit word `x` and every `n` with `1 ≤ n ≤ 31`,
`rotate_left(x, n)` is the circular left shift of `x` by `n`: it equals
`((x * 2^n) mod 2^32) + (x / 2^(32-n))`, it is again a 32-bit word, its bit
`i` is bit `(i - n) mod 32` of `x`, and rotating on by `32 - n` gives `x`
back.  Every count passed at a call site of the program (7, 9, 12, 15, 17,
19, 23) lies in `1..31`. -/
theorem rotate_left_circular (x n : Nat) (hx : x < 2 ^ 32) (h1 : 1 ≤ n) (h31 : n ≤ 31) :
    rotate_left x (n : Int) = (x * 2 ^ n) % 2 ^ 32 + x / 2 ^ (32 - n) ∧
      rotate_left x (n : Int) < 2 ^ 32 ∧
      (∀ i : Fin 32, (rotate_left x (n : Int)).testBit i.val
        = x.testBit ((i.val + 32 - n) % 32)) ∧
      rotate_left (rotate_left x (n : Int)) (32 - (n : Int)) = x ∧
      List.all rotate_call_sites (fun c => decide (1 ≤ c ∧ c ≤ 31)) = true ∧
      rotate_call_sites.eraseDups = [9, 17, 15, 23, 7, 12, 19] :=
  ⟨rotate_left_sum x n hx h1 h31, rotate_left_lt x n hx h1 h31,
    fun i => rotate_left_testBit x n hx h1 h31 i.val i.isLt,
    rotate_left_inverse x n hx h1 h31, by decide, by decide⟩

theorem rotate_left_circular_witness :
    0x7380166F < 2 ^ 32 ∧ 1 ≤ 12 ∧ 12 ≤ 31 ∧
      rotate_left 0x7380166F ((12 : Nat) : Int)
        = (0x7380166F * 2 ^ 12) % 2 ^ 32 + 0x7380166F / 2 ^ (32 - 12) :=
  ⟨by decide, by decide, by decide,
    (rotate_left_circular 0x7380166F 12 (by decide) (by decide) (by decide)).1⟩

/-! ## Round-constant table -/

theorem length_foldl_set_range' (s : Nat) (f : Nat → Nat) (n : Nat) (l : List Nat) :
    ((List.range' s n).foldl (fun t j => t.set j (f j)) l).length = l.length := by
  rw [List.range'_eq_map_range, List.foldl_map]
  exact length_foldl_set (fun i => s + i) (fun i => f (s + i)) n l

theorem getElem?_foldl_set_range' (s : Nat) (f : Nat → Nat) (n : Nat) (l : List Nat)
    (k : Nat) :
    ((List.range' s n).foldl (fun t j => t.set j (f j)) l)[k]? =
      if s ≤ k ∧ k < s + n ∧ k < l.length then some (f k) else l[k]? := by
  rw [List.range'_eq_map_range, List.foldl_map]
  rw [getElem?_foldl_set s (fun i => f (s + i)) n l k]
  by_cases h : s ≤ k ∧ k < s + n ∧ k < l.length
  · have e : s + (k - s) = k := by omega
    rw [if_pos h, if_pos h, e]
  · rw [if_neg h, if_neg h]

theorem length_init_rotated_T (t : List Nat) : (init_rotated_T t).length = t.length := by
  unfold init_rotated_T
  simp only
  rw [length_foldl_set_range' 16
    (fun j => shl32 T2 (j : Int) ||| shr32 T2 (32 - (j : Int))),
    length_foldl_set_range' 0
    (fun j => shl32 T1 (j : Int) ||| shr32 T1 (32 - (j : Int)))]

theorem getD_init_rotated_T (t : List Nat) (h : t.length = 64) (j : Nat) (hj : j < 64) :
    (init_rotated_T t).getD j 0 =
      if j < 16 then shl32 T1 (j : Int) ||| shr32 T1 (32 - (j : Int))
      else shl32 T2 (j : Int) ||| shr32 T2 (32 - (j : Int)) := by
  unfold init_rotated_T
  simp only
  rw [List.getD_eq_getElem?_getD,
    getElem?_foldl_set_range' 16 (fun j => shl32 T2 (j : Int) ||| shr32 T2 (32 - (j : Int))),
    length_foldl_set_range' 0 (fun j => shl32 T1 (j : Int) ||| shr32 T1 (32 - (j : Int))),
    getElem?_foldl_set_range' 0 (fun j => shl32 T1 (j : Int) ||| shr32 T1 (32 - (j : Int)))]
  by_cases h16 : j < 16
  · have h1 : ¬ (16 ≤ j ∧ j < 16 + 48 ∧ j < t.length) := by omega
    have h2 : 0 ≤ j ∧ j < 0 + 16 ∧ j < t.length := by omega
    rw [if_neg h1, if_pos h2, if_pos h16]
    rfl
  · have h1 : 16 ≤ j ∧ j < 16 + 48 ∧ j < t.length := by omega
    rw [if_pos h1, if_neg h16]
    rfl

theorem rotated_T1 (j : Nat) (hj : j < 16) :
    shl32 T1 (j : Int) ||| shr32 T1 (32 - (j : Int)) = rotl32 T1 (j % 32) := by
  interval_cases j <;> decide

theorem rotated_T2 (j : Nat) (h16 : 16 ≤ j) (hj : j < 64) :
    shl32 T2 (j : Int) ||| shr32 T2 (32 - (j : Int)) = rotl32 T2 (j % 32) := by
  interval_cases j <;> decide

theorem init_rotated_T_rotl (t : List Nat) (h : t.length = 64) (j : Nat) (hj : j < 64) :
    (init_rotated_T t).getD j 0 = rotl32 (if j < 16 then T1 else T2) (j % 32) := by
  rw [getD_init_rotated_T t h j hj]
  by_cases h16 : j < 16
  · rw [if_pos h16, if_pos h16, rotated_T1 j h16]
  · rw [if_neg h16, if_neg h16, rotated_T2 j (by omega) hj]

/-! ## Claim on the round-constant table -/

/-- C11: after `init_rotated_T` has run on the 64-entry table, for every
`j < 64` the entry `ROTATED_T[j]` is the 32-bit circular left rotation by
`j mod 32` of `T1 = 0x79CC4519` when `j < 16` and of `T2 = 0x7A879D8A` when
`j ≥ 16`; entry 0 is `T1` and entry 32 is `T2`.  For `j = 0` and `j ≥ 32`
the shift counts `j` and `32 - j` of the source lie outside `0..31`; there
the shifts are read with the count taken modulo 32 (see `shl32`). -/
theorem init_rotated_T_entries (ROTATED_T : List Nat) (h : ROTATED_T.length = 64)
    (j : Fin 64) :
    (init_rotated_T ROTATED_T).getD j.val 0
        = rotl32 (if j.val < 16 then T1 else T2) (j.val % 32) ∧
      (init_rotated_T ROTATED_T).length = 64 ∧
      (init_rotated_T ROTATED_T).getD 0 0 = T1 ∧
      (init_rotated_T ROTATED_T).getD 32 0 = T2 ∧
      T1 = 0x79CC4519 ∧ T2 = 0x7A879D8A := by
  refine ⟨init_rotated_T_rotl ROTATED_T h j.val j.isLt, ?_, ?_, ?_, rfl, rfl⟩
  · rw [length_init_rotated_T, h]
  · rw [init_rotated_T_rotl ROTATED_T h 0 (by norm_num)]
    decide
  · rw [init_rotated_T_rotl ROTATED_T h 32 (by norm_num)]
    decide

theorem init_rotated_T_entries_witness :
    (List.replicate 64 0).length = 64 ∧
      (init_rotated_T (List.replicate 64 0)).getD (33 : Fin 64).val 0
        = rotl32 (if (33 : Fin 64).val < 16 then T1 else T2) ((33 : Fin 64).val % 32) :=
  ⟨by decide, (init_rotated_T_entries (List.replicate 64 0) (by decide) 33).1⟩

/-! ## Round lemmas -/

theorem and_mask32 (x : Nat) : x &&& 0xFFFFFFFF = x % 2 ^ 32 :=
  Nat.and_pow_two_sub_one_eq_mod x 32

theorem add32_3 (a b c : Nat) : add32 (add32 a b) c = (a + b + c) % 2 ^ 32 := by
  unfold add32
  omega

theorem add32_4 (a b c d : Nat) :
    add32 (add32 (add32 a b) c) d = (a + b + c + d) % 2 ^ 32 := by
  unfold add32
  omega

theorem SS1_eq (A E Tj : Nat) :
    SS1 A E Tj = rotate_left ((rotate_left A 12 + E + Tj) % 2 ^ 32) 7 := by
  unfold SS1
  rw [and_mask32, add32_3, Nat.mod_mod]

theorem regs_at_succ (T W Wp V : List Nat) (j : Nat) :
    regs_at T W Wp V (j + 1) = round T W Wp (regs_at T W Wp V j) j := by
  unfold regs_at
  rw [List.range_succ, List.foldl_append, List.foldl_cons, List.foldl_nil]

theorem rounds_eq_regs_at (T W Wp V : List Nat) :
    rounds T W Wp (seed V) = regs_at T W Wp V 64 := rfl

theorem shl32_lt (x : Nat) (n : Int) : shl32 x n < 2 ^ 32 :=
  Nat.mod_lt _ (by norm_num)

theorem shr32_lt (x : Nat) (n : Int) : shr32 x n < 2 ^ 32 := by
  unfold shr32
  rw [Nat.shiftRight_eq_div_pow]
  exact lt_of_le_of_lt (Nat.div_le_self _ _) (Nat.mod_lt _ (by norm_num))

theorem rotate_left_word (x : Nat) (n : Int) : rotate_left x n < 2 ^ 32 :=
  Nat.or_lt_two_pow (shl32_lt _ _) (shr32_lt _ _)

theorem P0_word (x : Nat) (hx : x < 2 ^ 32) : P0 x < 2 ^ 32 :=
  Nat.xor_lt_two_pow (Nat.xor_lt_two_pow hx (rotate_left_word _ _)) (rotate_left_word _ _)

theorem TT1_word (j A B C D ss2 w : Nat) : TT1 j A B C D ss2 w < 2 ^ 32 := by
  unfold TT1
  split <;> exact Nat.and_lt_two_pow _ (by norm_num)

theorem TT2_word (j E F G H ss1 w : Nat) : TT2 j E F G H ss1 w < 2 ^ 32 := by
  unfold TT2
  split <;> exact Nat.and_lt_two_pow _ (by norm_num)

theorem round_is_word (T W Wp : List Nat) (r : Regs) (j : Nat) (h : r.is_word) :
    (round T W Wp r j).is_word := by
  obtain ⟨hA, hB, hC, hD, hE, hF, hG, hH⟩ := h
  exact ⟨TT1_word _ _ _ _ _ _ _, hA, rotate_left_word _ _, hC,
    P0_word _ (TT2_word _ _ _ _ _ _ _), hE, rotate_left_word _ _, hG⟩

theorem getD_word (V : List Nat) (hV : ∀ v ∈ V, v < 2 ^ 32) (k : Nat) : V.getD k 0 < 2 ^ 32 := by
  by_cases hk : k < V.length
  · rw [List.getD_eq_getElem V 0 hk]
    exact hV _ (List.getElem_mem hk)
  · rw [List.getD_eq_default V 0 (by omega)]
    norm_num

theorem seed_is_word (V : List Nat) (hV : ∀ v ∈ V, v < 2 ^ 32) : (seed V).is_word :=
  ⟨getD_word V hV 0, getD_word V hV 1, getD_word V hV 2, getD_word V hV 3,
    getD_word V hV 4, getD_word V hV 5, getD_word V hV 6, getD_word V hV 7⟩

theorem regs_at_is_word (T W Wp V : List Nat) (hV : ∀ v ∈ V, v < 2 ^ 32) (j : Nat) :
    (regs_at T W Wp V j).is_word := by
  induction j with
  | zero => exact seed_is_word V hV
  | succ j ih =>
    rw [regs_at_succ]
    exact round_is_word T W Wp _ j ih

theorem TT1_as_written (j A B C D ss2 w : Nat) (hA : A < 2 ^ 32) (hB : B < 2 ^ 32)
    (hC : C < 2 ^ 32) :
    TT1 j A B C D ss2 w =
      if j < 16 then A ^^^ B ^^^ ((C + D + ss2 + w) % 2 ^ 32)
      else (A &&& B) ||| (A &&& C) ||| (((B &&& C) + D + ss2 + w) % 2 ^ 32) := by
  have hm : ∀ x : Nat, x % 2 ^ 32 < 2 ^ 32 := fun x => Nat.mod_lt _ (by norm_num)
  unfold TT1
  split
  · rw [and_mask32, add32_4]
    exact Nat.mod_eq_of_lt (Nat.xor_lt_two_pow (Nat.xor_lt_two_pow hA hB) (hm _))
  · rw [and_mask32, add32_4]
    apply Nat.mod_eq_of_lt
    have h1 : A &&& B < 2 ^ 32 := Nat.and_lt_two_pow A hB
    have h2 : A &&& C < 2 ^ 32 := Nat.and_lt_two_pow A hC
    exact Nat.or_lt_two_pow (Nat.or_lt_two_pow h1 h2) (hm _)

theorem TT2_as_written (j E F G H ss1 w : Nat) (hE : E < 2 ^ 32) (hF : F < 2 ^ 32) :
    TT2 j E F G H ss1 w =
      if j < 16 then E ^^^ F ^^^ ((G + H + ss1 + w) % 2 ^ 32)
      else (E &&& F) ||| (((not32 E &&& G) + H + ss1 + w) % 2 ^ 32) := by
  have hm : ∀ x : Nat, x % 2 ^ 32 < 2 ^ 32 := fun x => Nat.mod_lt _ (by norm_num)
  unfold TT2
  split
  · rw [and_mask32, add32_4]
    exact Nat.mod_eq_of_lt (Nat.xor_lt_two_pow (Nat.xor_lt_two_pow hE hF) (hm _))
  · rw [and_mask32, add32_4]
    apply Nat.mod_eq_of_lt
    exact Nat.or_lt_two_pow (Nat.and_lt_two_pow E hF) (hm _)


theorem compression_function_word (T V B : List Nat) (hV : ∀ v ∈ V, v < 2 ^ 32) :
    ∀ v ∈ compression_function T V B, v < 2 ^ 32 := by
  obtain ⟨hA, hB, hC, hD, hE, hF, hG, hH⟩ :=
    regs_at_is_word T (W_array B) (W_prime_array (W_array B)) V hV 64
  intro v hv
  unfold compression_function at hv
  simp only [rounds_eq_regs_at, List.mem_cons, List.mem_singleton, List.not_mem_nil,
    or_false] at hv
  rcases hv with h | h | h | h | h | h | h | h <;> rw [h]
  · exact Nat.xor_lt_two_pow (getD_word V hV 0) hA
  · exact Nat.xor_lt_two_pow (getD_word V hV 1) hB
  · exact Nat.xor_lt_two_pow (getD_word V hV 2) hC
  · exact Nat.xor_lt_two_pow (getD_word V hV 3) hD
  · exact Nat.xor_lt_two_pow (getD_word V hV 4) hE
  · exact Nat.xor_lt_two_pow (getD_word V hV 5) hF
  · exact Nat.xor_lt_two_pow (getD_word V hV 6) hG
  · exact Nat.xor_lt_two_pow (getD_word V hV 7) hH

theorem IV_word : ∀ v ∈ IV, v < 2 ^ 32 := by decide

theorem state_before_succ (T padded : List Nat) (k : Nat) :
    state_before T padded (k + 1)
      = compression_function T (state_before T padded k) (padded.drop (64 * k)) := by
  unfold state_before
  rw [List.range_succ, List.foldl_append, List.foldl_cons, List.foldl_nil]

theorem state_before_word (T padded : List Nat) (k : Nat) :
    ∀ v ∈ state_before T padded k, v < 2 ^ 32 := by
  induction k with
  | zero => exact IV_word
  | succ k ih =>
    rw [state_before_succ]
    exact compression_function_word T _ _ ih

theorem not32_word (x : Nat) (hx : x < 2 ^ 32) : not32 x = 0xFFFFFFFF - x := by
  unfold not32
  rw [Nat.mod_eq_of_lt hx]
  omega

/-! ## Claims on the compression rounds -/

/-- C12: in round `j`, starting from registers `r`, the code computes
`SS1 = rotl((rotl(A,12) + E + ROTATED_T[j]) mod 2^32, 7)` and
`SS2 = SS1 ^ rotl(A,12)`, and the registers after the round are `D' = C`,
`C' = rotl(B,9)`, `B' = A`, `A' = TT1`, `H' = G`, `G' = rotl(F,19)`, `F' = E`,
`E' = P0(TT2)` with `P0 x = x ^ rotl(x,9) ^ rotl(x,17)`, every right-hand
side read from the registers before the round; the 64-round loop applies
this step for `j = 0, ..., 63` in turn. -/
theorem round_registers (T W Wp : List Nat) (r : Regs) (j : Nat) :
    SS1 r.A r.E (T.getD j 0)
        = rotate_left ((rotate_left r.A 12 + r.E + T.getD j 0) % 2 ^ 32) 7 ∧
      SS2 r.A (SS1 r.A r.E (T.getD j 0))
        = SS1 r.A r.E (T.getD j 0) ^^^ rotate_left r.A 12 ∧
      (round T W Wp r j).D = r.C ∧
      (round T W Wp r j).C = rotate_left r.B_reg 9 ∧
      (round T W Wp r j).B_reg = r.A ∧
      (round T W Wp r j).A
        = TT1 j r.A r.B_reg r.C r.D (SS2 r.A (SS1 r.A r.E (T.getD j 0))) (Wp.getD j 0) ∧
      (round T W Wp r j).H = r.G ∧
      (round T W Wp r j).G = rotate_left r.F 19 ∧
      (round T W Wp r j).F = r.E ∧
      (round T W Wp r j).E
        = P0 (TT2 j r.E r.F r.G r.H (SS1 r.A r.E (T.getD j 0)) (W.getD j 0)) ∧
      (∀ x : Nat, P0 x = x ^^^ rotate_left x 9 ^^^ rotate_left x 17) ∧
      (∀ V : List Nat, regs_at T W Wp V (j + 1) = round T W Wp (regs_at T W Wp V j) j) ∧
      (∀ V : List Nat, rounds T W Wp (seed V) = regs_at T W Wp V 64) :=
  ⟨SS1_eq _ _ _, rfl, rfl, rfl, rfl, rfl, rfl, rfl, rfl, rfl, fun _ => rfl,
    fun V => regs_at_succ T W Wp V j, fun _ => rfl⟩

/-- C13: `compression_function` seeds `A..H` from `V[0..7]`, runs the rounds
`0..63` in order, and returns the 8 words `V[i] ^ R[i]`, where `R` holds the
registers `A, B, C, D, E, F, G, H` after round 63. -/
theorem compression_function_update (T V B : List Nat) :
    regs_at T (W_array B) (W_prime_array (W_array B)) V 0
        = ⟨V.getD 0 0, V.getD 1 0, V.getD 2 0, V.getD 3 0,
           V.getD 4 0, V.getD 5 0, V.getD 6 0, V.getD 7 0⟩ ∧
      (∀ j : Fin 64, regs_at T (W_array B) (W_prime_array (W_array B)) V (j.val + 1)
        = round T (W_array B) (W_prime_array (W_array B))
            (regs_at T (W_array B) (W_prime_array (W_array B)) V j.val) j.val) ∧
      (compression_function T V B).length = 8 ∧
      (∀ i : Fin 8, (compression_function T V B).getD i.val 0
        = V.getD i.val 0 ^^^
          (regs_at T (W_array B) (W_prime_array (W_array B)) V 64).toList.getD i.val 0) := by
  refine ⟨rfl, fun j => regs_at_succ _ _ _ _ _, rfl, fun i => ?_⟩
  fin_cases i <;> rfl

/-- C17: as the source is written, for 32-bit registers `r` the code computes
in round `j < 16` `TT1 = A ^ B ^ ((C + D + SS2 + W'[j]) mod 2^32)` and
`TT2 = E ^ F ^ ((G + H + SS1 + W[j]) mod 2^32)`, and in round `j ≥ 16`
`TT1 = (A&B) | (A&C) | (((B&C) + D + SS2 + W'[j]) mod 2^32)` and
`TT2 = (E&F) | ((((~E)&G) + H + SS1 + W[j]) mod 2^32)`, with `~E` the 32-bit
complement; these are the values stored to `A` and passed to `P0` for `E`.
In every round of every block of a run the registers are 32-bit words. -/
theorem TT_as_written (T W Wp : List Nat) (r : Regs) (hr : r.is_word) (j : Nat) :
    TT1 j r.A r.B_reg r.C r.D (SS2 r.A (SS1 r.A r.E (T.getD j 0))) (Wp.getD j 0)
        = (if j < 16 then
            r.A ^^^ r.B_reg ^^^
              ((r.C + r.D + SS2 r.A (SS1 r.A r.E (T.getD j 0)) + Wp.getD j 0) % 2 ^ 32)
          else
            (r.A &&& r.B_reg) ||| (r.A &&& r.C) |||
              (((r.B_reg &&& r.C) + r.D + SS2 r.A (SS1 r.A r.E (T.getD j 0)) + Wp.getD j 0)
                % 2 ^ 32)) ∧
      TT2 j r.E r.F r.G r.H (SS1 r.A r.E (T.getD j 0)) (W.getD j 0)
        = (if j < 16 then
            r.E ^^^ r.F ^^^ ((r.G + r.H + SS1 r.A r.E (T.getD j 0) + W.getD j 0) % 2 ^ 32)
          else
            (r.E &&& r.F) |||
              (((not32 r.E &&& r.G) + r.H + SS1 r.A r.E (T.getD j 0) + W.getD j 0)
                % 2 ^ 32)) ∧
      not32 r.E = 0xFFFFFFFF - r.E ∧
      (round T W Wp r j).A
        = TT1 j r.A r.B_reg r.C r.D (SS2 r.A (SS1 r.A r.E (T.getD j 0))) (Wp.getD j 0) ∧
      (round T W Wp r j).E
        = P0 (TT2 j r.E r.F r.G r.H (SS1 r.A r.E (T.getD j 0)) (W.getD j 0)) ∧
      (∀ (padded : List Nat) (k i : Nat),
        (regs_at T (W_array (padded.drop (64 * k)))
          (W_prime_array (W_array (padded.drop (64 * k))))
          (state_before T padded k) i).is_word) := by
  obtain ⟨hA, hB, hC, _, hE, hF, _, _⟩ := hr
  exact ⟨TT1_as_written _ _ _ _ _ _ _ hA hB hC, TT2_as_written _ _ _ _ _ _ _ hE hF,
    not32_word _ hE, rfl, rfl,
    fun padded k i => regs_at_is_word _ _ _ _ (state_before_word T padded k) i⟩

theorem TT_as_written_witness :
    (seed IV).is_word ∧
      (round built.ROTATED_T (W_array empty_block) (W_prime_array (W_array empty_block))
          (seed IV) 0).A
        = TT1 0 (seed IV).A (seed IV).B_reg (seed IV).C (seed IV).D
            (SS2 (seed IV).A (SS1 (seed IV).A (seed IV).E (built.ROTATED_T.getD 0 0)))
            ((W_prime_array (W_array empty_block)).getD 0 0) :=
  ⟨seed_is_word IV IV_word,
    (TT_as_written built.ROTATED_T (W_array empty_block)
      (W_prime_array (W_array empty_block)) (seed IV) (seed_is_word IV IV_word) 0).2.2.2.1⟩

/-! ## Block driver lemmas -/

theorem getD_take_64 (B : List Nat) (k : Nat) (hk : k < 64) :
    (B.take 64).getD k 0 = B.getD k 0 := by
  rw [List.getD_eq_getElem?_getD, List.getD_eq_getElem?_getD, List.getElem?_take_of_lt hk]

theorem W_load_take (B : List Nat) : W_load (B.take 64) = W_load B := by
  unfold W_load
  apply List.map_congr_left
  intro i hi
  rw [List.mem_range] at hi
  unfold load_le32
  rw [getD_take_64 B (4 * i) (by omega), getD_take_64 B (4 * i + 1) (by omega),
    getD_take_64 B (4 * i + 2) (by omega), getD_take_64 B (4 * i + 3) (by omega)]

theorem compression_function_take (T V B : List Nat) :
    compression_function T V (B.take 64) = compression_function T V B := by
  unfold compression_function W_array
  rw [W_load_take]

theorem out_len_dvd (len : Nat) : 64 ∣ out_len len := by
  unfold out_len zeros_needed padded_len
  omega

theorem block_loop_eq_state_before (T padded : List Nat) (n : Nat) :
    block_loop T padded n IV = state_before T padded ((n + 63) / 64) := rfl

theorem foldl_blocks (T padded V : List Nat) :
    (blocks padded).foldl (compression_function T) V =
      (List.range (padded.length / 64)).foldl
        (fun V k => compression_function T V (padded.drop (64 * k))) V := by
  unfold blocks
  rw [List.foldl_map]
  apply List.foldl_ext
  intro a b _
  exact compression_function_take T a _

theorem getElem?_blocks (padded : List Nat) (k : Nat) :
    (blocks padded)[k]? =
      if k < padded.length / 64 then some ((padded.drop (64 * k)).take 64) else none := by
  unfold blocks
  rw [List.getElem?_map]
  by_cases h : k < padded.length / 64
  · rw [List.getElem?_range h, if_pos h]
    rfl
  · have h2 : (List.range (padded.length / 64))[k]? = none := by
      rw [List.getElem?_eq_none_iff, List.length_range]
      omega
    rw [h2, if_neg h]
    rfl

theorem length_blocks (padded : List Nat) : (blocks padded).length = padded.length / 64 := by
  simp [blocks]

theorem blocks_all_64 (padded : List Nat) :
    List.all (blocks padded) (fun b => decide (b.length = 64)) = true := by
  rw [List.all_eq_true]
  intro b hb
  unfold blocks at hb
  rw [List.mem_map] at hb
  obtain ⟨k, hk, rfl⟩ := hb
  rw [List.mem_range] at hk
  apply decide_eq_true
  rw [List.length_take, List.length_drop]
  omega

/-! ## Claim on the block driver -/

/-- C14: for every message the state encoded by `sm3_hash` is the left fold of
`compression_function` over the consecutive 64-byte blocks of the padded
buffer, in order, starting from `IV`; there are `padded_len / 64` blocks,
block `k` is the bytes `64k .. 64k+63`, and each application receives the
state left by the previous one. -/
theorem sm3_hash_block_fold (st : ProcState) (heap : Nat → Nat) (message : List Nat) :
    (sm3_hash st heap message).2 =
        encode ((blocks (fill_message heap message).1).foldl
          (compression_function (ensure_init st).ROTATED_T) IV) ∧
      (blocks (fill_message heap message).1).length = (fill_message heap message).2 / 64 ∧
      (∀ k : Nat, (blocks (fill_message heap message).1)[k]? =
        if k < (fill_message heap message).2 / 64 then
          some (((fill_message heap message).1.drop (64 * k)).take 64)
        else none) ∧
      List.all (blocks (fill_message heap message).1) (fun b => decide (b.length = 64))
        = true ∧
      IV = [0x7380166F, 0x4914B2B9, 0x172442D7, 0xDA8A0600,
            0xA96F30BC, 0x163138AA, 0xE38DEE4D, 0xB0FB0E4E] := by
  have hl := length_fill_message heap message
  have h2 : (fill_message heap message).2 = out_len message.length := rfl
  have hd := out_len_dvd message.length
  refine ⟨?_, ?_, ?_, blocks_all_64 _, rfl⟩
  · rw [sm3_hash_result, foldl_blocks, hl, h2]
    unfold block_loop
    have e : (out_len message.length + 63) / 64 = out_len message.length / 64 := by omega
    rw [e]
  · rw [length_blocks, hl, h2]
  · intro k
    rw [getElem?_blocks, hl, h2]

/-! ## Claim on the process state -/

theorem run_calls_built (calls : List ((Nat → Nat) × List Nat)) :
    run_calls built calls = built := by
  induction calls with
  | nil => rfl
  | cons c t ih =>
    unfold run_calls at ih ⊢
    rw [List.foldl_cons, sm3_hash_state, ensure_init_built]
    exact ih

theorem run_calls_cons (c : (Nat → Nat) × List Nat) (calls : List ((Nat → Nat) × List Nat)) :
    run_calls ProcState.start (c :: calls) = built := by
  have h := run_calls_built calls
  unfold run_calls at h ⊢
  rw [List.foldl_cons, sm3_hash_state, ensure_init_start]
  exact h

/-- C16: with the process state `(initialized, ROTATED_T)` starting at
`(0, all zeros)`, the first call of `sm3_hash` runs `init_rotated_T`; after
any non-empty sequence of calls `initialized = 1` and `ROTATED_T` holds the
64 round constants produced by `init_rotated_T`; a call made in such a state
does not run `init_rotated_T` and leaves the flag and the table unchanged. -/
theorem table_built_once (c : (Nat → Nat) × List Nat) (calls : List ((Nat → Nat) × List Nat))
    (heap : Nat → Nat) (message : List Nat) :
    ProcState.start.initialized = 0 ∧
      ProcState.start.ROTATED_T = List.replicate 64 0 ∧
      init_runs ProcState.start = true ∧
      (sm3_hash ProcState.start heap message).1
        = ⟨1, init_rotated_T ProcState.start.ROTATED_T⟩ ∧
      (run_calls ProcState.start (c :: calls)).initialized = 1 ∧
      (run_calls ProcState.start (c :: calls)).ROTATED_T
        = init_rotated_T (List.replicate 64 0) ∧
      (run_calls ProcState.start (c :: calls)).ROTATED_T.length = 64 ∧
      (∀ j : Fin 64, (run_calls ProcState.start (c :: calls)).ROTATED_T.getD j.val 0
        = rotl32 (if j.val < 16 then T1 else T2) (j.val % 32)) ∧
      init_runs (run_calls ProcState.start (c :: calls)) = false ∧
      (sm3_hash (run_calls ProcState.start (c :: calls)) heap message).1
        = run_calls ProcState.start (c :: calls) := by
  rw [run_calls_cons]
  refine ⟨rfl, rfl, rfl, rfl, rfl, rfl, ?_, fun j => ?_, rfl, rfl⟩
  · show (init_rotated_T (List.replicate 64 0)).length = 64
    rw [length_init_rotated_T, List.length_replicate]
  · exact init_rotated_T_rotl (List.replicate 64 0) (List.length_replicate 64 0) j.val j.isLt

/-! ## Encoder round trip -/

theorem hex_value_digit (b : Nat) (hb : b < 16) :
    hex_value (hex_digits.getD b (Char.ofNat 0)) = b := by
  interval_cases b <;> decide

theorem and_15 (x : Nat) : x &&& 0x0F = x % 16 :=
  Nat.and_pow_two_sub_one_eq_mod x 4

theorem parse_word_chars (v : Nat) (hv : v < 2 ^ 32) : parse_hex (word_chars v) = v := by
  have hr : List.range 8 = [0, 1, 2, 3, 4, 5, 6, 7] := by decide
  have hd : ∀ x : Nat, hex_value (hex_digits.getD (x &&& 0x0F) (Char.ofNat 0)) = x % 16 := by
    intro x
    rw [and_15, hex_value_digit _ (Nat.mod_lt _ (by norm_num))]
  unfold word_chars parse_hex
  rw [hr]
  simp only [List.map, List.foldl, hd, Nat.shiftRight_eq_div_pow]
  norm_num
  omega

theorem decode_encode_8 (v0 v1 v2 v3 v4 v5 v6 v7 : Nat) :
    decode (c_string (encode [v0, v1, v2, v3, v4, v5, v6, v7])) =
      [parse_hex (word_chars v0), parse_hex (word_chars v1), parse_hex (word_chars v2),
       parse_hex (word_chars v3), parse_hex (word_chars v4), parse_hex (word_chars v5),
       parse_hex (word_chars v6), parse_hex (word_chars v7)] := by
  rw [c_string_encode]
  rfl

theorem decode_encode (V : List Nat) (hlen : V.length = 8) (hV : ∀ v ∈ V, v < 2 ^ 32) :
    decode (c_string (encode V)) = V := by
  match V, hlen, hV with
  | [v0, v1, v2, v3, v4, v5, v6, v7], _, hV =>
    rw [decode_encode_8]
    rw [parse_word_chars v0 (hV _ (by simp)), parse_word_chars v1 (hV _ (by simp)),
      parse_word_chars v2 (hV _ (by simp)), parse_word_chars v3 (hV _ (by simp)),
      parse_word_chars v4 (hV _ (by simp)), parse_word_chars v5 (hV _ (by simp)),
      parse_word_chars v6 (hV _ (by simp)), parse_word_chars v7 (hV _ (by simp))]

theorem getD_encode_pos (V : List Nat) (i k : Nat) (hi : i < 8) (hk : k < 8) (d : Char) :
    (encode V).getD (8 * i + k) d = hex_char V i k := by
  rw [getD_encode V (8 * i + k) (by omega) d]
  have e1 : (8 * i + k) / 8 = i := by omega
  have e2 : (8 * i + k) % 8 = k := by omega
  rw [e1, e2]

/-! ## Claim on the encoder -/

/-- C15: for states `V` and `V2` of 8 words of 32 bits, the encoder writes at
position `8i + k` (`i, k < 8`) the character of "0123456789abcdef" indexed by
the nibble `(V[i] >> (28 - 4k)) & 0xF`; parsing the 64 characters of the
digest string as hexadecimal, 8 characters per word, gives `V` back; and two
states have the same encoding exactly when they are equal. -/
theorem encode_round_trip (V V2 : List Nat) (hlen : V.length = 8) (hV : ∀ v ∈ V, v < 2 ^ 32)
    (hlen2 : V2.length = 8) (hV2 : ∀ v ∈ V2, v < 2 ^ 32) :
    (∀ i k : Fin 8, (encode V).getD (8 * i.val + k.val) (Char.ofNat 0)
        = hex_digits.getD ((V.getD i.val 0 >>> (28 - 4 * k.val)) &&& 0xF) (Char.ofNat 0)) ∧
      (c_string (encode V)).length = 64 ∧
      decode (c_string (encode V)) = V ∧
      (encode V = encode V2 ↔ V = V2) := by
  refine ⟨fun i k => ?_, ?_, decode_encode V hlen hV, ⟨fun h => ?_, fun h => by rw [h]⟩⟩
  · rw [getD_encode_pos V i.val k.val i.isLt k.isLt]
    unfold hex_char
    rw [Nat.mul_comm 4 k.val]
  · rw [c_string_encode]
    simp
  · rw [← decode_encode V hlen hV, ← decode_encode V2 hlen2 hV2, h]

theorem encode_round_trip_witness :
    IV.length = 8 ∧ (∀ v ∈ IV, v < 2 ^ 32) ∧ decode (c_string (encode IV)) = IV :=
  ⟨by decide, IV_word, (encode_round_trip IV IV (by decide) IV_word (by decide) IV_word).2.2.1⟩

/-! ## Injectivity of the padding -/

theorem drop_length_fill_message (heap : Nat → Nat) (m : List Nat)
    (h : m.length * 8 < 2 ^ 64) :
    (fill_message heap m).1.drop ((fill_message heap m).1.length - 8)
      = (List.range 8).map (length_byte m.length) := by
  have hl : (fill_message heap m).1.length = m.length + 1 + zeros_needed m.length + 8 := by
    rw [length_fill_message, out_len_eq _ h]
  rw [hl, fill_message_explicit heap m h]
  have e : m ++ 0x80 :: (List.replicate (zeros_needed m.length) 0
      ++ (List.range 8).map (length_byte m.length))
      = (m ++ 0x80 :: List.replicate (zeros_needed m.length) 0)
        ++ (List.range 8).map (length_byte m.length) := by simp
  rw [e]
  apply List.drop_left'
  simp only [List.length_append, List.length_cons, List.length_replicate]
  omega

theorem take_fill_message (heap : Nat → Nat) (m : List Nat) (h : m.length * 8 < 2 ^ 64) :
    (fill_message heap m).1.take m.length = m := by
  rw [fill_message_explicit heap m h]
  exact List.take_left' rfl

theorem fill_message_inj (heap heap2 : Nat → Nat) (m1 m2 : List Nat)
    (h1 : m1.length * 8 < 2 ^ 64) (h2 : m2.length * 8 < 2 ^ 64)
    (heq : (fill_message heap m1).1 = (fill_message heap2 m2).1) : m1 = m2 := by
  have d1 := drop_length_fill_message heap m1 h1
  have d2 := drop_length_fill_message heap2 m2 h2
  rw [heq, d2] at d1
  have hb := congrArg be_read d1
  rw [be_read_length_bytes, be_read_length_bytes] at hb
  unfold length_bits at hb
  have hlen : m1.length = m2.length := by omega
  have t1 := take_fill_message heap m1 h1
  have t2 := take_fill_message heap2 m2 h2
  rw [heq, hlen, t2] at t1
  exact t1.symm

theorem getElem?_of_blocks (p : List Nat) (hp : 64 ∣ p.length) (i : Nat) :
    p[i]? = ((blocks p)[i / 64]?).bind (fun b => b[i % 64]?) := by
  rw [getElem?_blocks]
  by_cases hi : i / 64 < p.length / 64
  · rw [if_pos hi]
    show p[i]? = ((p.drop (64 * (i / 64))).take 64)[i % 64]?
    rw [List.getElem?_take_of_lt (Nat.mod_lt _ (by norm_num)), List.getElem?_drop]
    congr 1
    omega
  · rw [if_neg hi]
    show p[i]? = none
    rw [List.getElem?_eq_none_iff]
    omega

theorem blocks_inj (p q : List Nat) (hp : 64 ∣ p.length) (hq : 64 ∣ q.length)
    (h : blocks p = blocks q) : p = q := by
  apply List.ext_getElem?
  intro i
  rw [getElem?_of_blocks p hp, getElem?_of_blocks q hq, h]

theorem length_fill_message_dvd (heap : Nat → Nat) (m : List Nat) :
    64 ∣ (fill_message heap m).1.length := by
  rw [length_fill_message]
  exact out_len_dvd _

theorem xor_two_pow_ne (x b : Nat) : x ^^^ 2 ^ b ≠ x := by
  intro h
  have h0 : x ^^^ 2 ^ b = x ^^^ 0 := by rw [h, Nat.xor_zero]
  have h1 : 2 ^ b = 0 := Nat.xor_right_injective h0
  exact absurd h1 (Nat.pos_iff_ne_zero.mp (Nat.pow_pos (by norm_num)))

theorem flip_bit_ne (m : List Nat) (i b : Nat) (hi : i < m.length) : flip_bit m i b ≠ m := by
  intro h
  have h1 : (flip_bit m i b)[i]? = m[i]? := by rw [h]
  unfold flip_bit at h1
  rw [List.getElem?_set, if_pos rfl, if_pos hi, List.getD_eq_getElem m 0 hi,
    List.getElem?_eq_getElem hi] at h1
  exact xor_two_pow_ne _ _ (Option.some.inj h1)

theorem length_flip_bit (m : List Nat) (i b : Nat) : (flip_bit m i b).length = m.length := by
  simp [flip_bit]

/-! ## Claim on the injectivity of the padding -/

/-- C18: for two messages of fewer than `2^61` bytes, the padded buffers are
equal exactly when the messages are equal, and so are the sequences of
64-byte blocks handed to `compression_function`; in particular a message and
the same message with one bit flipped are padded to different block
sequences. -/
theorem fill_message_injective (heap heap2 : Nat → Nat) (m1 m2 : List Nat)
    (h1 : m1.length < 2 ^ 61) (h2 : m2.length < 2 ^ 61) :
    ((fill_message heap m1).1 = (fill_message heap2 m2).1 ↔ m1 = m2) ∧
      (blocks (fill_message heap m1).1 = blocks (fill_message heap2 m2).1 ↔ m1 = m2) ∧
      (∀ (i : Fin m1.length) (b : Fin 8),
        blocks (fill_message heap (flip_bit m1 i.val b.val)).1
          ≠ blocks (fill_message heap2 m1).1) := by
  have k1 : m1.length * 8 < 2 ^ 64 := by omega
  have k2 : m2.length * 8 < 2 ^ 64 := by omega
  have hb : ∀ (ha hb : Nat → Nat) (a c : List Nat), a.length * 8 < 2 ^ 64 →
      c.length * 8 < 2 ^ 64 →
      blocks (fill_message ha a).1 = blocks (fill_message hb c).1 → a = c := by
    intro ha hb a c ka kc h
    exact fill_message_inj ha hb a c ka kc
      (blocks_inj _ _ (length_fill_message_dvd ha a) (length_fill_message_dvd hb c) h)
  refine ⟨⟨fill_message_inj heap heap2 m1 m2 k1 k2, fun h => ?_⟩,
    ⟨hb heap heap2 m1 m2 k1 k2, fun h => ?_⟩, fun i b h => ?_⟩
  · rw [h, fill_message_heap heap heap2]
  · rw [h, fill_message_heap heap heap2]
  · have kf : (flip_bit m1 i.val b.val).length * 8 < 2 ^ 64 := by
      rw [length_flip_bit]
      exact k1
    exact flip_bit_ne m1 i.val b.val i.isLt (hb heap heap2 _ _ kf k1 h)

theorem fill_message_injective_witness :
    abc.length < 2 ^ 61 ∧ [0x61, 0x62].length < 2 ^ 61 ∧
      ((fill_message (fun _ => 0) abc).1 = (fill_message (fun _ => 1) [0x61, 0x62]).1
        ↔ abc = [0x61, 0x62]) :=
  ⟨by decide, by decide,
    (fill_message_injective (fun _ => 0) (fun _ => 1) abc [0x61, 0x62]
      (by decide) (by decide)).1⟩

/-! ## Bounds of the array accesses -/

theorem isSome_getElem? (l : List Nat) (i : Nat) (h : i < l.length) :
    (l[i]?).isSome = true := by
  rw [List.getElem?_eq_getElem h]
  rfl

theorem length_W_upto (B : List Nat) (j : Nat) (h16 : 16 ≤ j) : (W_upto B j).length = j := by
  unfold W_upto
  rw [(W_fold (W_load B) (length_W_load B) (j - 16)).1]
  omega

theorem W_upto_succ (B : List Nat) (j : Nat) (h16 : 16 ≤ j) :
    W_upto B (j + 1) = W_step (W_upto B j) j := by
  unfold W_upto
  have e : j + 1 - 16 = (j - 16) + 1 := by omega
  have e2 : 16 + 1 * (j - 16) = j := by omega
  rw [e, List.range'_concat, List.foldl_concat, e2]

theorem length_W_array (B : List Nat) : (W_array B).length = 68 :=
  (W_fold (W_load B) (length_W_load B) 52).1

theorem length_W_prime_array (W : List Nat) : (W_prime_array W).length = 64 := by
  simp [W_prime_array]

/-- C19: every buffer access is in bounds.  For a message of length `L` whose
bit length fits in 64 bits: the buffer has `*out_len` bytes; the indices
written by `fill_message` (`0..L-1`, `L`, `L+1..L+Z`, `L+1+Z..L+1+Z+7`) are
below `*out_len` and the highest is `*out_len - 1`; in every iteration of the
block loop the 64 bytes read through `&padded[i]` exist.  For every block:
when the expansion loop stores `W[j]` (`16 ≤ j < 68`) the entries
`W[j-16], W[j-13], W[j-9], W[j-6], W[j-3]` it reads have been stored, `W` has
68 entries and `W'` 64, and the reads `W[j]`, `W[j+4]`, `W'[j]` and
`ROTATED_T[j]` for `j < 64` exist. -/
theorem accesses_in_bounds (heap : Nat → Nat) (message B : List Nat)
    (calls : List ((Nat → Nat) × List Nat)) (h : message.length * 8 < 2 ^ 64) :
    (malloc heap (fill_message heap message).2).length = (fill_message heap message).2 ∧
      (fill_message heap message).1.length = (fill_message heap message).2 ∧
      (∀ i : Fin message.length, i.val < (fill_message heap message).2) ∧
      message.length < (fill_message heap message).2 ∧
      (∀ z : Fin (zeros_needed message.length),
        message.length + 1 + z.val < (fill_message heap message).2) ∧
      (∀ i : Fin 8, message.length + 1 + zeros_needed message.length + i.val
        < (fill_message heap message).2) ∧
      message.length + 1 + zeros_needed message.length + 7
        = (fill_message heap message).2 - 1 ∧
      (∀ (k : Fin (((fill_message heap message).2 + 63) / 64)) (b : Fin 64),
        64 * k.val + b.val < (fill_message heap message).2 ∧
        (((fill_message heap message).1.drop (64 * k.val))[b.val]?).isSome = true) ∧
      (∀ j : Fin 52,
        W_upto B (16 + j.val + 1) = W_step (W_upto B (16 + j.val)) (16 + j.val) ∧
        (W_upto B (16 + j.val)).length = 16 + j.val ∧
        16 + j.val < 68 ∧
        ((W_upto B (16 + j.val))[16 + j.val - 16]?).isSome = true ∧
        ((W_upto B (16 + j.val))[16 + j.val - 13]?).isSome = true ∧
        ((W_upto B (16 + j.val))[16 + j.val - 9]?).isSome = true ∧
        ((W_upto B (16 + j.val))[16 + j.val - 6]?).isSome = true ∧
        ((W_upto B (16 + j.val))[16 + j.val - 3]?).isSome = true) ∧
      W_upto B 68 = W_array B ∧
      (W_array B).length = 68 ∧
      (W_prime_array (W_array B)).length = 64 ∧
      (ensure_init (run_calls ProcState.start calls)).ROTATED_T.length = 64 ∧
      (∀ j : Fin 64,
        j.val + 4 ≤ 67 ∧
        ((W_array B)[j.val]?).isSome = true ∧
        ((W_array B)[j.val + 4]?).isSome = true ∧
        ((W_prime_array (W_array B))[j.val]?).isSome = true ∧
        ((ensure_init (run_calls ProcState.start calls)).ROTATED_T[j.val]?).isSome = true) := by
  have hz := zeros_needed_lt message.length
  have he := out_len_eq message.length h
  have hl := length_fill_message heap message
  have hd := out_len_dvd message.length
  have h2 : (fill_message heap message).2 = out_len message.length := rfl
  have hT : (ensure_init (run_calls ProcState.start calls)).ROTATED_T.length = 64 := by
    rw [ensure_init_run_calls]
    show (init_rotated_T (List.replicate 64 0)).length = 64
    rw [length_init_rotated_T, List.length_replicate]
  have hW := length_W_array B
  have hWp := length_W_prime_array (W_array B)
  rw [h2, hl]
  refine ⟨length_malloc _ _, rfl, fun i => ?_, by omega, fun z => ?_, fun i => ?_, by omega,
    fun k b => ?_, fun j => ?_, rfl, hW, hWp, hT, fun j => ?_⟩
  · have := i.isLt
    omega
  · have := z.isLt
    omega
  · have := i.isLt
    omega
  · have hk := k.isLt
    have hb := b.isLt
    have hlt : 64 * k.val + b.val < out_len message.length := by omega
    refine ⟨hlt, ?_⟩
    rw [List.getElem?_drop]
    exact isSome_getElem? _ _ (by rw [hl]; exact hlt)
  · have hj := j.isLt
    have hlen := length_W_upto B (16 + j.val) (by omega)
    refine ⟨W_upto_succ B _ (by omega), hlen, by omega, ?_, ?_, ?_, ?_, ?_⟩ <;>
      exact isSome_getElem? _ _ (by rw [hlen]; omega)
  · have hj := j.isLt
    exact ⟨by omega, isSome_getElem? _ _ (by omega), isSome_getElem? _ _ (by omega),
      isSome_getElem? _ _ (by omega), isSome_getElem? _ _ (by omega)⟩

theorem accesses_in_bounds_witness :
    abc.length * 8 < 2 ^ 64 ∧
      abc.length + 1 + zeros_needed abc.length + 7 = (fill_message (fun _ => 0) abc).2 - 1 :=
  ⟨by decide,
    (accesses_in_bounds (fun _ => 0) abc empty_block [] (by decide)).2.2.2.2.2.2.1⟩

end SM3
